import Mathlib

/-!
Verification development for the Unbox repository (Python 2 sources under
`src/python`).  The two core components are modelled as pure Lean
functions:

* `DropboxModule` (src/python/dropbox_module.py) — the versioned resource
  store over a shared volume, with an index mapping resource names to
  per-resource info and a small model of the on-volume directory layout.
* `LocalModule` (src/python/local_module.py) — the local link ledger and
  backup/quarantine facility, with a tree model of the local filesystem.

Python `dict`s are modelled as association lists, Python `set`s of strings
as duplicate-free lists, and raised `ValueError`s (plus OS-level errors)
as an `Err` type returned through `Except`.  Every operation is translated
statement by statement from the Python source; source line numbers are
referenced in the doc comments.
-/

/-- Error kinds.  Python raises `ValueError` with distinct messages; the
spec (§7) groups them into kinds.  Each raise site in the source is mapped
to the kind its message expresses.  `ioFailure` stands for an `OSError` /
`IOError` raised by a filesystem call (mkdir on an existing path, remove of
a missing path, symlink onto an existing path, copytree onto an existing
directory, ...).  `pyCrash` stands for a Python `NameError`/`KeyError`
caused by a reference to an undefined variable or missing key. -/
inductive Err where
  | invalidInput
  | notFound
  | alreadyExists
  | invalidOperation
  | ioFailure
  | pyCrash
deriving DecidableEq, Repr

/-! ### Association lists (model of Python `dict`) -/

/-- Lookup in an association list (Python `d[k]` / `k in d`). -/
def alookup {κ α : Type} [DecidableEq κ] : List (κ × α) → κ → Option α
  | [], _ => none
  | (k, v) :: l, k' => if k = k' then some v else alookup l k'

/-- Insert/replace a binding (Python `d[k] = v`).  Replaces in place if the
key is present, appends otherwise. -/
def ainsert {κ α : Type} [DecidableEq κ] : List (κ × α) → κ → α → List (κ × α)
  | [], k, v => [(k, v)]
  | (k0, v0) :: l, k, v =>
      if k0 = k then (k, v) :: l else (k0, v0) :: ainsert l k v

/-- Delete a binding (Python `del d[k]`). -/
def aerase {κ α : Type} [DecidableEq κ] : List (κ × α) → κ → List (κ × α)
  | [], _ => []
  | (k0, v0) :: l, k => if k0 = k then l else (k0, v0) :: aerase l k

/-- Keys of an association list (Python `d.keys()`). -/
def akeys {κ α : Type} : List (κ × α) → List κ :=
  fun l => l.map Prod.fst

theorem alookup_ainsert_self {κ α : Type} [DecidableEq κ]
    (l : List (κ × α)) (k : κ) (v : α) : alookup (ainsert l k v) k = some v := by
  induction l with
  | nil => simp [ainsert, alookup]
  | cons p l ih =>
      obtain ⟨k0, v0⟩ := p
      by_cases h : k0 = k
      · simp [ainsert, alookup, h]
      · simp [ainsert, alookup, h, ih]

theorem alookup_ainsert_ne {κ α : Type} [DecidableEq κ]
    (l : List (κ × α)) (k k' : κ) (v : α) (h : k ≠ k') :
    alookup (ainsert l k v) k' = alookup l k' := by
  induction l with
  | nil => simp [ainsert, alookup, h]
  | cons p l ih =>
      obtain ⟨k0, v0⟩ := p
      by_cases h0 : k0 = k
      · subst h0
        simp [ainsert, alookup, h]
      · simp [ainsert, alookup, h0, ih]

theorem mem_akeys_iff_alookup {κ α : Type} [DecidableEq κ]
    (l : List (κ × α)) (k : κ) : k ∈ akeys l ↔ (alookup l k).isSome := by
  induction l with
  | nil => simp [akeys, alookup]
  | cons p l ih =>
      obtain ⟨k0, v0⟩ := p
      by_cases h : k0 = k
      · subst h
        simp [akeys, alookup]
      · simp only [akeys, List.map_cons, List.mem_cons, alookup, if_neg h]
        rw [akeys] at ih
        constructor
        · intro hm
          rcases hm with hm | hm
          · exact absurd hm.symm h
          · exact ih.mp hm
        · intro hm
          exact Or.inr (ih.mpr hm)

theorem alookup_aerase_ne {κ α : Type} [DecidableEq κ]
    (l : List (κ × α)) (k k' : κ) (h : k ≠ k') :
    alookup (aerase l k) k' = alookup l k' := by
  induction l with
  | nil => simp [aerase]
  | cons p l ih =>
      obtain ⟨k0, v0⟩ := p
      by_cases h0 : k0 = k
      · subst h0
        simp [aerase, alookup, h]
      · simp [aerase, alookup, h0, ih]

theorem alookup_eq_none_iff {κ α : Type} [DecidableEq κ]
    (l : List (κ × α)) (k : κ) : alookup l k = none ↔ k ∉ akeys l := by
  rw [mem_akeys_iff_alookup]
  cases h : alookup l k <;> simp

theorem not_mem_akeys_aerase_self {κ α : Type} [DecidableEq κ]
    (l : List (κ × α)) (k : κ) (hnd : (akeys l).Nodup) :
    k ∉ akeys (aerase l k) := by
  induction l with
  | nil => simp [aerase, akeys]
  | cons p l ih =>
      obtain ⟨k0, v0⟩ := p
      simp only [akeys, List.map_cons, List.nodup_cons] at hnd
      by_cases h0 : k0 = k
      · subst h0
        simp only [aerase, if_pos rfl]
        exact hnd.1
      · simp only [aerase, if_neg h0, akeys, List.map_cons, List.mem_cons, not_or]
        exact ⟨fun hc => h0 hc.symm, ih hnd.2⟩

theorem alookup_aerase_self {κ α : Type} [DecidableEq κ]
    (l : List (κ × α)) (k : κ) (hnd : (akeys l).Nodup) :
    alookup (aerase l k) k = none :=
  (alookup_eq_none_iff _ _).mpr (not_mem_akeys_aerase_self l k hnd)

theorem aerase_ainsert_fresh {κ α : Type} [DecidableEq κ]
    (l : List (κ × α)) (k : κ) (v : α) (hk : alookup l k = none) :
    aerase (ainsert l k v) k = l := by
  induction l with
  | nil => simp [ainsert, aerase]
  | cons p l ih =>
      obtain ⟨k0, v0⟩ := p
      by_cases h0 : k0 = k
      · simp [alookup, h0] at hk
      · simp only [alookup, if_neg h0] at hk
        simp [ainsert, aerase, h0, ih hk]

theorem akeys_ainsert_mem {κ α : Type} [DecidableEq κ]
    (l : List (κ × α)) (k k' : κ) (v : α) :
    k' ∈ akeys (ainsert l k v) ↔ k' = k ∨ k' ∈ akeys l := by
  rw [mem_akeys_iff_alookup, mem_akeys_iff_alookup]
  by_cases h : k = k'
  · subst h
    rw [alookup_ainsert_self]
    simp
  · rw [alookup_ainsert_ne l k k' v h]
    exact ⟨fun hs => Or.inr hs,
      fun hm => hm.elim (fun hc => absurd hc.symm h) id⟩

theorem akeys_aerase_sub {κ α : Type} [DecidableEq κ]
    (l : List (κ × α)) (k k' : κ) (h : k' ∈ akeys (aerase l k)) :
    k' ∈ akeys l := by
  induction l with
  | nil => simpa [aerase] using h
  | cons p l ih =>
      obtain ⟨k0, v0⟩ := p
      by_cases h0 : k0 = k
      · subst h0
        simp only [aerase, if_pos rfl] at h
        simp only [akeys, List.map_cons, List.mem_cons]
        exact Or.inr h
      · simp only [aerase, if_neg h0, akeys, List.map_cons, List.mem_cons] at h ⊢
        rcases h with h | h
        · exact Or.inl h
        · exact Or.inr (ih h)

theorem akeys_nodup_ainsert {κ α : Type} [DecidableEq κ]
    (l : List (κ × α)) (k : κ) (v : α) (hnd : (akeys l).Nodup) :
    (akeys (ainsert l k v)).Nodup := by
  induction l with
  | nil => simp [ainsert, akeys]
  | cons p l ih =>
      obtain ⟨k0, v0⟩ := p
      simp only [akeys, List.map_cons, List.nodup_cons] at hnd
      by_cases h0 : k0 = k
      · subst h0
        rw [show ainsert ((k0, v0) :: l) k0 v = (k0, v) :: l from by simp [ainsert]]
        simp only [akeys, List.map_cons, List.nodup_cons]
        exact hnd
      · simp only [ainsert, if_neg h0, akeys, List.map_cons, List.nodup_cons]
        constructor
        · intro hm
          rw [show (ainsert l k v).map Prod.fst = akeys (ainsert l k v) from rfl,
            akeys_ainsert_mem] at hm
          rcases hm with hm | hm
          · exact h0 hm
          · exact hnd.1 hm
        · exact ih hnd.2

theorem akeys_nodup_aerase {κ α : Type} [DecidableEq κ]
    (l : List (κ × α)) (k : κ) (hnd : (akeys l).Nodup) :
    (akeys (aerase l k)).Nodup := by
  induction l with
  | nil => simp [aerase, akeys]
  | cons p l ih =>
      obtain ⟨k0, v0⟩ := p
      simp only [akeys, List.map_cons, List.nodup_cons] at hnd
      by_cases h0 : k0 = k
      · subst h0
        simp only [aerase, if_pos rfl]
        exact hnd.2
      · simp only [aerase, if_neg h0, akeys, List.map_cons, List.nodup_cons]
        exact ⟨fun hm => hnd.1 (akeys_aerase_sub l k k0 hm), ih hnd.2⟩

/-! ### Path-component prefixes -/

/-- Boolean prefix test on component lists. -/
def isPref : List String → List String → Bool
  | [], _ => true
  | _ :: _, [] => false
  | a :: as, b :: bs => a = b && isPref as bs

/-- Two paths are disjoint when neither is a prefix of the other (so a
mutation rooted at one cannot be seen from the other). -/
def PDisj (p q : List String) : Prop := isPref p q = false ∧ isPref q p = false

theorem isPref_refl (p : List String) : isPref p p = true := by
  induction p with
  | nil => rfl
  | cons a as ih => simp [isPref, ih]

theorem isPref_append (p q : List String) : isPref p (p ++ q) = true := by
  induction p with
  | nil => rfl
  | cons a as ih => simp [isPref, ih]

theorem isPref_trans {p q r : List String} (h1 : isPref p q = true)
    (h2 : isPref q r = true) : isPref p r = true := by
  induction p generalizing q r with
  | nil => rfl
  | cons a as ih =>
      cases q with
      | nil => simp [isPref] at h1
      | cons b bs =>
          cases r with
          | nil => simp [isPref] at h2
          | cons c cs =>
              simp [isPref] at h1 h2 ⊢
              exact ⟨h1.1.trans h2.1, ih h1.2 h2.2⟩

theorem isPref_total {p q r : List String} (h1 : isPref p r = true)
    (h2 : isPref q r = true) : isPref p q = true ∨ isPref q p = true := by
  induction p generalizing q r with
  | nil => exact Or.inl rfl
  | cons a as ih =>
      cases q with
      | nil => exact Or.inr rfl
      | cons b bs =>
          cases r with
          | nil => simp [isPref] at h1
          | cons c cs =>
              simp [isPref] at h1 h2 ⊢
              rcases ih h1.2 h2.2 with h | h
              · exact Or.inl ⟨h1.1.trans h2.1.symm, h⟩
              · exact Or.inr ⟨h2.1.trans h1.1.symm, h⟩

theorem PDisj.symm {p q : List String} (h : PDisj p q) : PDisj q p :=
  ⟨h.2, h.1⟩

/-- Disjointness extends to any path below the second one. -/
theorem PDisj_extend {p q : List String} (h : PDisj p q) (r : List String) :
    PDisj p (q ++ r) := by
  constructor
  · by_contra hc
    have hc' : isPref p (q ++ r) = true := by
      cases hp : isPref p (q ++ r)
      · exact absurd hp hc
      · rfl
    have hq : isPref q (q ++ r) = true := isPref_append q r
    rcases isPref_total hc' hq with h1 | h1
    · rw [h.1] at h1; exact absurd h1 (by simp)
    · rw [h.2] at h1; exact absurd h1 (by simp)
  · by_contra hc
    have hc' : isPref (q ++ r) p = true := by
      cases hp : isPref (q ++ r) p
      · exact absurd hp hc
      · rfl
    have : isPref q p = true := isPref_trans (isPref_append q r) hc'
    rw [h.2] at this
    exact absurd this (by simp)

/-! ### Path strings (model of `os.path` / `unbox_filesystem.abs_path`)

Paths are plain strings; component lists are obtained by splitting on
`/`.  `absPath` models `unbox_filesystem.Filesystem.abs_path`
(src/python/unbox_filesystem.py:84-86):
`os.path.abspath(os.path.expanduser(os.path.normpath(path)))`.
The environment supplies the process working directory (for `abspath`)
and the user home directory (for `expanduser`); symlink targets written
by this code base are always absolute, and `~user` forms (expanding a
NAMED user's home) are outside the model. -/

structure Env where
  home : String
  cwd : String
deriving Repr

/-- Split a character list on `/` (Python `s.split('/')`), keeping empty
pieces. -/
def splitSlashAux : List Char → List Char → List String
  | acc, [] => [String.mk acc.reverse]
  | acc, c :: cs =>
      if c = '/' then String.mk acc.reverse :: splitSlashAux [] cs
      else splitSlashAux (c :: acc) cs

/-- Split a path string on `/`, keeping empty pieces. -/
def splitSlash (s : String) : List String :=
  splitSlashAux [] s.toList

/-- Join components with `/` separators. -/
def joinSlash : List String → String
  | [] => ""
  | [c] => c
  | c :: cs => c ++ "/" ++ joinSlash cs

/-- Whether a string starts with the given character. -/
def startsWithChar (s : String) (c : Char) : Bool :=
  match s.toList with
  | [] => false
  | c0 :: _ => c0 = c

/-- Trim leading and trailing whitespace (Python `str.strip()`). -/
def strTrim (s : String) : String :=
  let ws : Char → Bool := fun c => c = ' ' ∨ c = '\t' ∨ c = '\n' ∨ c = '\r'
  String.mk (((s.toList.dropWhile ws).reverse.dropWhile ws).reverse)

/-- Components of a path string: split on `/` and drop empty pieces. -/
def pathComps (s : String) : List String :=
  (splitSlash s).filter (fun c => c ≠ "")

/-- One step of `os.path.normpath` component processing: `acc` is the
reversed list of kept components. -/
def normStep (isAbs : Bool) : List String → List String → List String
  | acc, [] => acc.reverse
  | acc, c :: cs =>
    if c = "" ∨ c = "." then normStep isAbs acc cs
    else if c = ".." then
      match acc with
      | [] => if isAbs then normStep isAbs [] cs else normStep isAbs [".."] cs
      | a :: as =>
          if a = ".." then normStep isAbs (".." :: a :: as) cs
          else normStep isAbs as cs
    else normStep isAbs (c :: acc) cs

/-- `os.path.normpath` on a path string. -/
def normpathStr (s : String) : String :=
  let isAbs := startsWithChar s '/'
  let comps := normStep isAbs [] (splitSlash s)
  if isAbs then "/" ++ joinSlash comps
  else if comps = [] then "." else joinSlash comps

/-- `os.path.expanduser` (bare `~` and `~/...` forms). -/
def expandUserStr (home s : String) : String :=
  match s.toList with
  | ['~'] => home
  | '~' :: '/' :: rest => home ++ "/" ++ String.mk rest
  | _ => s

/-- `os.path.abspath`: join onto the working directory when relative,
then normalize. -/
def absPathOs (env : Env) (s : String) : String :=
  if startsWithChar s '/' then normpathStr s
  else normpathStr (env.cwd ++ "/" ++ s)

/-- `unbox_filesystem.abs_path` = `abspath(expanduser(normpath(path)))`
(src/python/unbox_filesystem.py:86). -/
def absPath (env : Env) (s : String) : String :=
  absPathOs env (expandUserStr env.home (normpathStr s))

example : absPath ⟨"/home/u", "/home/u/w"⟩ "f.txt" = "/home/u/w/f.txt" := by decide
example : absPath ⟨"/home/u", "/home/u/w"⟩ "~/x/../f.txt" = "/home/u/f.txt" := by decide
example : absPath ⟨"/home/u", "/c"⟩ "/a/b/./c//d" = "/a/b/c/d" := by decide
example : pathComps "/a/b/c" = ["a", "b", "c"] := by decide
example : normpathStr "" = "." := by decide

/-! ### Filesystem tree model

A node is a file with opaque content, a symbolic link holding a target
path string, or a directory with named entries.  Mutating operations are
structural; the existence tests used by the Python code
(`os.path.exists` / `isdir` / `isfile`, which follow symbolic links, and
`os.path.lexists`, which does not follow the final component) are
modelled with fuel-bounded link resolution.  All symlink targets written
by this code base are absolute paths, which is what the resolver
assumes. -/

inductive FsNode where
  | file (content : String)
  | symlinkTo (target : String)
  | dir (entries : List (String × FsNode))

/-- Structural lookup (no symlink following). -/
def getNode : FsNode → List String → Option FsNode
  | n, [] => some n
  | FsNode.dir es, c :: p =>
      match alookup es c with
      | some m => getNode m p
      | none => none
  | _, _ :: _ => none

/-- Replace/insert the node at a path.  Every intermediate component must
already exist as a directory; the final binding is replaced if present and
appended otherwise.  Returns `none` when the ancestor chain is missing or
not made of directories. -/
def setNode : FsNode → List String → FsNode → Option FsNode
  | _, [], n => some n
  | FsNode.dir es, c :: p, n =>
      match alookup es c with
      | some m => (setNode m p n).map (fun m' => FsNode.dir (ainsert es c m'))
      | none =>
          match p with
          | [] => some (FsNode.dir (ainsert es c n))
          | _ :: _ => none
  | _, _ :: _, _ => none

/-- Remove the binding at a path (the path must exist). -/
def removeNode : FsNode → List String → Option FsNode
  | _, [] => none
  | FsNode.dir es, c :: p =>
      if p = [] then
        match alookup es c with
        | some _ => some (FsNode.dir (aerase es c))
        | none => none
      else
        match alookup es c with
        | some m => (removeNode m p).map (fun m' => FsNode.dir (ainsert es c m'))
        | none => none
  | _, _ :: _ => none

def isLinkNode : FsNode → Bool
  | FsNode.symlinkTo _ => true
  | _ => false

/-- One resolution walk: follow directory entries along the path and hand
any encountered symbolic link (including one in the final component) to
the `resolve` continuation, applied to the link's target (an absolute
path in this code base) joined with the remaining components. -/
def fsWalk (resolve : List String → Option FsNode) : FsNode → List String → Option FsNode
  | FsNode.symlinkTo t, p => resolve (pathComps t ++ p)
  | n, [] => some n
  | FsNode.dir es, c :: p =>
      match alookup es c with
      | some m => fsWalk resolve m p
      | none => none
  | FsNode.file _, _ :: _ => none

/-- Path resolution from the root, following symbolic links (each link
hop consumes fuel) — the behavior behind `os.path.exists`,
`os.path.isdir` and `os.path.isfile`. -/
def fsResolve (root : FsNode) : Nat → List String → Option FsNode
  | 0, _ => none
  | fuel + 1, p => fsWalk (fun q => fsResolve root fuel q) root p

/-- One resolution walk that does not follow a symbolic link sitting in
the final component. -/
def fsWalkL (resolve : List String → Option FsNode) : FsNode → List String → Option FsNode
  | n, [] => some n
  | FsNode.dir es, c :: p =>
      match alookup es c with
      | some m => fsWalkL resolve m p
      | none => none
  | FsNode.symlinkTo t, p => resolve (pathComps t ++ p)
  | FsNode.file _, _ :: _ => none

/-- Path resolution that does not follow a symbolic link in the final
component (the behavior behind `os.path.lexists`). -/
def fsResolveL (root : FsNode) : Nat → List String → Option FsNode
  | 0, _ => none
  | fuel + 1, p => fsWalkL (fun q => fsResolveL root fuel q) root p

/-- `os.path.exists`. -/
def osExists (r : FsNode) (p : List String) : Bool :=
  (fsResolve r 40 p).isSome

/-- `os.path.lexists`. -/
def osLexists (r : FsNode) (p : List String) : Bool :=
  (fsResolveL r 40 p).isSome

/-- `os.path.isfile`. -/
def osIsFile (r : FsNode) (p : List String) : Bool :=
  match fsResolve r 40 p with
  | some (FsNode.file _) => true
  | _ => false

/-- `os.path.isdir`. -/
def osIsDir (r : FsNode) (p : List String) : Bool :=
  match fsResolve r 40 p with
  | some (FsNode.dir _) => true
  | _ => false

/-- `os.mkdir`: fails if the name already exists or the parent chain is
missing. -/
def mkdirOp (r : FsNode) (p : List String) : Except Err FsNode :=
  if osLexists r p then Except.error Err.ioFailure
  else
    match setNode r p (FsNode.dir []) with
    | some r' => Except.ok r'
    | none => Except.error Err.ioFailure

/-- `os.rmdir`: the path must name an empty directory. -/
def rmdirOp (r : FsNode) (p : List String) : Except Err FsNode :=
  match getNode r p with
  | some (FsNode.dir []) =>
      match removeNode r p with
      | some r' => Except.ok r'
      | none => Except.error Err.ioFailure
  | _ => Except.error Err.ioFailure

/-- `os.remove`: the path must name a file or a symbolic link. -/
def removeFileOp (r : FsNode) (p : List String) : Except Err FsNode :=
  match getNode r p with
  | some (FsNode.file _) | some (FsNode.symlinkTo _) =>
      match removeNode r p with
      | some r' => Except.ok r'
      | none => Except.error Err.ioFailure
  | _ => Except.error Err.ioFailure

/-- `os.symlink(src, linkname)`: creates a symbolic link AT `linkname`
whose target is `src`; fails if something already exists at `linkname`. -/
def symlinkOp (r : FsNode) (src : String) (linkname : List String) :
    Except Err FsNode :=
  if osLexists r linkname then Except.error Err.ioFailure
  else
    match setNode r linkname (FsNode.symlinkTo src) with
    | some r' => Except.ok r'
    | none => Except.error Err.ioFailure

/-- Last component of a component list (basename). -/
def lastComp (p : List String) : String :=
  match p.reverse with
  | [] => ""
  | c :: _ => c

/-- `os.path.basename` of a path string. -/
def baseNameStr (s : String) : String :=
  lastComp (pathComps s)

/-- `shutil.move(src, dst)`: when `dst` resolves to an existing directory
the source is moved inside it under its own basename, otherwise the
source is renamed to `dst`. -/
def shutilMove (r : FsNode) (src dst : List String) : Except Err FsNode :=
  match getNode r src with
  | none => Except.error Err.ioFailure
  | some n =>
      let dst' :=
        match fsResolve r 40 dst with
        | some (FsNode.dir _) => dst ++ [lastComp src]
        | _ => dst
      match removeNode r src with
      | none => Except.error Err.ioFailure
      | some r1 =>
          match setNode r1 dst' n with
          | none => Except.error Err.ioFailure
          | some r2 => Except.ok r2

/-! ### Lemmas about the filesystem tree operations -/

theorem getNode_nil (r : FsNode) : getNode r [] = some r := by
  cases r <;> rfl

theorem getNode_append (r : FsNode) (q s : List String) :
    getNode r (q ++ s) = (getNode r q).bind (fun m => getNode m s) := by
  induction q generalizing r with
  | nil => simp [getNode_nil]
  | cons c q ih =>
      cases r with
      | file content => simp [getNode]
      | symlinkTo t => simp [getNode]
      | dir es =>
          cases h : alookup es c with
          | none => simp [getNode, h]
          | some m => simp [getNode, h, ih]

theorem getNode_snoc_dir {r t : FsNode} {q : List String} {c : String}
    (h : getNode r (q ++ [c]) = some t) :
    ∃ es, getNode r q = some (FsNode.dir es) ∧ alookup es c = some t := by
  rw [getNode_append] at h
  cases hq : getNode r q with
  | none => rw [hq] at h; simp at h
  | some mq =>
      rw [hq] at h
      simp only [Option.some_bind] at h
      cases mq with
      | file content => simp [getNode] at h
      | symlinkTo tg => simp [getNode] at h
      | dir es =>
          refine ⟨es, rfl, ?_⟩
          cases hl : alookup es c with
          | none => simp [getNode, hl] at h
          | some m =>
              simp only [getNode, hl] at h
              simpa [getNode] using h

theorem getNode_setNode_self {n : FsNode} :
    ∀ {p : List String} {r r' : FsNode}, setNode r p n = some r' →
    getNode r' p = some n := by
  intro p
  induction p with
  | nil =>
      intro r r' h
      simp only [setNode] at h
      cases h
      exact getNode_nil n
  | cons c p ih =>
      intro r r' h
      cases r with
      | file content => simp [setNode] at h
      | symlinkTo t => simp [setNode] at h
      | dir es =>
          cases ha : alookup es c with
          | some m =>
              simp only [setNode, ha] at h
              rcases Option.map_eq_some'.mp h with ⟨m', hm', rfl⟩
              simp only [getNode, alookup_ainsert_self]
              exact ih hm'
          | none =>
              cases p with
              | nil =>
                  simp only [setNode, ha] at h
                  cases h
                  simp [getNode, alookup_ainsert_self]
              | cons d ds => simp [setNode, ha] at h

theorem setNode_snoc_dir {r : FsNode} {es : List (String × FsNode)}
    {q : List String} (c : String) (n : FsNode)
    (h : getNode r q = some (FsNode.dir es)) :
    ∃ r', setNode r (q ++ [c]) n = some r' ∧
      getNode r' q = some (FsNode.dir (ainsert es c n)) := by
  induction q generalizing r with
  | nil =>
      simp only [getNode] at h
      cases h
      refine ⟨FsNode.dir (ainsert es c n), ?_, rfl⟩
      cases ha : alookup es c with
      | some m => simp [setNode, ha]
      | none => simp [setNode, ha]
  | cons a q ih =>
      cases r with
      | file content => simp [getNode] at h
      | symlinkTo t => simp [getNode] at h
      | dir es0 =>
          cases ha : alookup es0 a with
          | none => simp [getNode, ha] at h
          | some m =>
              simp only [getNode, ha] at h
              obtain ⟨m', hset, hget⟩ := ih h
              refine ⟨FsNode.dir (ainsert es0 a m'), ?_, ?_⟩
              · simp [setNode, ha, hset]
              · simp [getNode, alookup_ainsert_self, hget]

theorem removeNode_snoc_dir {r : FsNode} {es : List (String × FsNode)}
    {m : FsNode} {q : List String} {c : String}
    (h : getNode r q = some (FsNode.dir es)) (hm : alookup es c = some m) :
    ∃ r', removeNode r (q ++ [c]) = some r' ∧
      getNode r' q = some (FsNode.dir (aerase es c)) := by
  induction q generalizing r with
  | nil =>
      simp only [getNode] at h
      cases h
      exact ⟨FsNode.dir (aerase es c), by simp [removeNode, hm], rfl⟩
  | cons a q ih =>
      cases r with
      | file content => simp [getNode] at h
      | symlinkTo t => simp [getNode] at h
      | dir es0 =>
          cases ha : alookup es0 a with
          | none => simp [getNode, ha] at h
          | some m0 =>
              simp only [getNode, ha] at h
              obtain ⟨m', hrem, hget⟩ := ih h
              refine ⟨FsNode.dir (ainsert es0 a m'), ?_, ?_⟩
              · have hne : q ++ [c] ≠ [] := by simp
                simp [removeNode, hne, ha, hrem]
              · simp [getNode, alookup_ainsert_self, hget]

theorem PDisj_cons {a : String} {p q : List String} (h : PDisj (a :: p) (a :: q)) :
    PDisj p q := by
  constructor
  · have h1 := h.1
    simp [isPref] at h1
    exact h1
  · have h2 := h.2
    simp [isPref] at h2
    exact h2

theorem getNode_setNode_ne {n : FsNode} :
    ∀ {q p : List String} {r r' : FsNode}, setNode r p n = some r' →
    PDisj p q → getNode r' q = getNode r q := by
  intro q
  induction q with
  | nil =>
      intro p r r' _ hd
      exact absurd hd.2 (by simp [isPref])
  | cons c q ih =>
      intro p r r' h hd
      cases p with
      | nil => exact absurd hd.1 (by simp [isPref])
      | cons a p2 =>
          cases r with
          | file content => simp [setNode] at h
          | symlinkTo t => simp [setNode] at h
          | dir es =>
              cases ha : alookup es a with
              | some m =>
                  simp only [setNode, ha] at h
                  rcases Option.map_eq_some'.mp h with ⟨m', hm', rfl⟩
                  by_cases hac : a = c
                  · subst hac
                    have hd2 := PDisj_cons hd
                    simp only [getNode, alookup_ainsert_self, ha]
                    exact ih hm' hd2
                  · simp only [getNode, alookup_ainsert_ne es a c m' hac]
              | none =>
                  cases p2 with
                  | nil =>
                      simp only [setNode, ha] at h
                      cases h
                      have hac : a ≠ c := by
                        intro hh
                        subst hh
                        exact absurd hd.1 (by simp [isPref, isPref_refl])
                      simp only [getNode, alookup_ainsert_ne es a c n hac]
                  | cons d ds => simp [setNode, ha] at h

theorem getNode_removeNode_ne :
    ∀ {q p : List String} {r r' : FsNode}, removeNode r p = some r' →
    PDisj p q → getNode r' q = getNode r q := by
  intro q
  induction q with
  | nil =>
      intro p r r' _ hd
      exact absurd hd.2 (by simp [isPref])
  | cons c q ih =>
      intro p r r' h hd
      cases p with
      | nil => simp [removeNode] at h
      | cons a p2 =>
          cases r with
          | file content => simp [removeNode] at h
          | symlinkTo t => simp [removeNode] at h
          | dir es =>
              cases p2 with
              | nil =>
                  have hrm : removeNode (FsNode.dir es) [a] =
                      match alookup es a with
                      | some _ => some (FsNode.dir (aerase es a))
                      | none => none := by simp [removeNode]
                  cases ha : alookup es a with
                  | none => rw [hrm, ha] at h; exact absurd h (by simp)
                  | some m =>
                      rw [hrm, ha] at h
                      simp only [Option.some_inj] at h
                      subst h
                      have hac : a ≠ c := by
                        intro hh
                        subst hh
                        exact absurd hd.1 (by simp [isPref, isPref_refl])
                      simp only [getNode, alookup_aerase_ne es a c hac]
              | cons d ds =>
                  have hne : (d :: ds : List String) ≠ [] := by simp
                  simp only [removeNode, if_neg hne] at h
                  cases ha : alookup es a with
                  | none => rw [ha] at h; exact absurd h (by simp)
                  | some m =>
                      rw [ha] at h
                      rcases Option.map_eq_some'.mp h with ⟨m', hm', rfl⟩
                      by_cases hac : a = c
                      · subst hac
                        have hd2 := PDisj_cons hd
                        simp only [getNode, alookup_ainsert_self, ha]
                        exact ih hm' hd2
                      · simp only [getNode, alookup_ainsert_ne es a c m' hac]

theorem keepDir_set {n : FsNode} :
    ∀ {q p : List String} {r r' : FsNode} {es : List (String × FsNode)},
    setNode r p n = some r' → getNode r q = some (FsNode.dir es) →
    isPref p q = false →
    ∃ es', getNode r' q = some (FsNode.dir es') ∧
      ((akeys es).Nodup → (akeys es').Nodup) := by
  intro q
  induction q with
  | nil =>
      intro p r r' es h hq hpq
      rw [getNode_nil, Option.some_inj] at hq
      subst hq
      cases p with
      | nil => simp [isPref] at hpq
      | cons a p2 =>
          cases ha : alookup es a with
          | some m =>
              simp only [setNode, ha] at h
              rcases Option.map_eq_some'.mp h with ⟨m', _, rfl⟩
              exact ⟨ainsert es a m', getNode_nil _,
                fun hnd => akeys_nodup_ainsert es a m' hnd⟩
          | none =>
              cases p2 with
              | nil =>
                  simp only [setNode, ha] at h
                  cases h
                  exact ⟨ainsert es a n, getNode_nil _,
                    fun hnd => akeys_nodup_ainsert es a n hnd⟩
              | cons d ds => simp [setNode, ha] at h
  | cons c q ih =>
      intro p r r' es h hq hpq
      cases r with
      | file content => simp [getNode] at hq
      | symlinkTo t => simp [getNode] at hq
      | dir es0 =>
          cases hc : alookup es0 c with
          | none => simp [getNode, hc] at hq
          | some m =>
              simp only [getNode, hc] at hq
              cases p with
              | nil => simp [isPref] at hpq
              | cons a p2 =>
                  cases ha : alookup es0 a with
                  | some m2 =>
                      simp only [setNode, ha] at h
                      rcases Option.map_eq_some'.mp h with ⟨m', hm', rfl⟩
                      by_cases hac : a = c
                      · subst hac
                        rw [hc] at ha
                        have hm2 : m2 = m := by
                          injection ha with hh
                          exact hh.symm
                        subst hm2
                        have hpq2 : isPref p2 q = false := by
                          simpa [isPref] using hpq
                        obtain ⟨es', hget, hnd⟩ := ih hm' hq hpq2
                        exact ⟨es', by simp [getNode, alookup_ainsert_self, hget],
                          hnd⟩
                      · refine ⟨es, ?_, id⟩
                        simp [getNode, alookup_ainsert_ne es0 a c m' hac, hc, hq]
                  | none =>
                      cases p2 with
                      | nil =>
                          simp only [setNode, ha] at h
                          cases h
                          have hac : a ≠ c := by
                            intro hh
                            subst hh
                            rw [hc] at ha
                            exact absurd ha (by simp)
                          refine ⟨es, ?_, id⟩
                          simp [getNode, alookup_ainsert_ne es0 a c n hac, hc, hq]
                      | cons d ds => simp [setNode, ha] at h

theorem keepDir_remove :
    ∀ {q p : List String} {r r' : FsNode} {es : List (String × FsNode)},
    removeNode r p = some r' → getNode r q = some (FsNode.dir es) →
    isPref p q = false →
    ∃ es', getNode r' q = some (FsNode.dir es') ∧
      ((akeys es).Nodup → (akeys es').Nodup) := by
  intro q
  induction q with
  | nil =>
      intro p r r' es h hq hpq
      rw [getNode_nil, Option.some_inj] at hq
      subst hq
      cases p with
      | nil => simp [removeNode] at h
      | cons a p2 =>
          cases p2 with
          | nil =>
              have hrm : removeNode (FsNode.dir es) [a] =
                  match alookup es a with
                  | some _ => some (FsNode.dir (aerase es a))
                  | none => none := by simp [removeNode]
              cases ha : alookup es a with
              | none => rw [hrm, ha] at h; exact absurd h (by simp)
              | some m =>
                  rw [hrm, ha] at h
                  simp only [Option.some_inj] at h
                  subst h
                  exact ⟨aerase es a, getNode_nil _,
                    fun hnd => akeys_nodup_aerase es a hnd⟩
          | cons d ds =>
              have hne : (d :: ds : List String) ≠ [] := by simp
              simp only [removeNode, if_neg hne] at h
              cases ha : alookup es a with
              | none => rw [ha] at h; exact absurd h (by simp)
              | some m =>
                  rw [ha] at h
                  rcases Option.map_eq_some'.mp h with ⟨m', _, rfl⟩
                  exact ⟨ainsert es a m', getNode_nil _,
                    fun hnd => akeys_nodup_ainsert es a m' hnd⟩
  | cons c q ih =>
      intro p r r' es h hq hpq
      cases r with
      | file content => simp [getNode] at hq
      | symlinkTo t => simp [getNode] at hq
      | dir es0 =>
          cases hc : alookup es0 c with
          | none => simp [getNode, hc] at hq
          | some m =>
              simp only [getNode, hc] at hq
              cases p with
              | nil => simp [removeNode] at h
              | cons a p2 =>
                  cases p2 with
                  | nil =>
                      have hrm : removeNode (FsNode.dir es0) [a] =
                          match alookup es0 a with
                          | some _ => some (FsNode.dir (aerase es0 a))
                          | none => none := by simp [removeNode]
                      cases ha : alookup es0 a with
                      | none => rw [hrm, ha] at h; exact absurd h (by simp)
                      | some m0 =>
                          rw [hrm, ha] at h
                          simp only [Option.some_inj] at h
                          subst h
                          have hac : a ≠ c := by
                            intro hh
                            subst hh
                            simp [isPref, isPref_refl] at hpq
                          refine ⟨es, ?_, id⟩
                          simp [getNode, alookup_aerase_ne es0 a c hac, hc, hq]
                  | cons d ds =>
                      have hne : (d :: ds : List String) ≠ [] := by simp
                      simp only [removeNode, if_neg hne] at h
                      cases ha : alookup es0 a with
                      | none => rw [ha] at h; exact absurd h (by simp)
                      | some m2 =>
                          rw [ha] at h
                          rcases Option.map_eq_some'.mp h with ⟨m', hm', rfl⟩
                          by_cases hac : a = c
                          · subst hac
                            rw [hc] at ha
                            have hm2 : m2 = m := by
                              injection ha with hh
                              exact hh.symm
                            subst hm2
                            have hpq2 : isPref (d :: ds) q = false := by
                              simpa [isPref] using hpq
                            obtain ⟨es', hget, hnd⟩ := ih hm' hq hpq2
                            exact ⟨es',
                              by simp [getNode, alookup_ainsert_self, hget], hnd⟩
                          · refine ⟨es, ?_, id⟩
                            simp [getNode, alookup_ainsert_ne es0 a c m' hac, hc, hq]

theorem fsWalk_append_of_getNode (res : List String → Option FsNode) :
    ∀ {q : List String} {r m : FsNode}, getNode r q = some m →
    ∀ s, fsWalk res r (q ++ s) = fsWalk res m s := by
  intro q
  induction q with
  | nil =>
      intro r m hq s
      rw [getNode_nil, Option.some_inj] at hq
      subst hq
      rfl
  | cons c q ih =>
      intro r m hq s
      cases r with
      | file content => simp [getNode] at hq
      | symlinkTo t => simp [getNode] at hq
      | dir es =>
          cases hc : alookup es c with
          | none => simp [getNode, hc] at hq
          | some m0 =>
              simp only [getNode, hc] at hq
              simpa [fsWalk, hc] using ih hq s

theorem fsWalkL_append_of_getNode (res : List String → Option FsNode) :
    ∀ {q : List String} {r m : FsNode}, getNode r q = some m →
    ∀ s, fsWalkL res r (q ++ s) = fsWalkL res m s := by
  intro q
  induction q with
  | nil =>
      intro r m hq s
      rw [getNode_nil, Option.some_inj] at hq
      subst hq
      rfl
  | cons c q ih =>
      intro r m hq s
      cases r with
      | file content => simp [getNode] at hq
      | symlinkTo t => simp [getNode] at hq
      | dir es =>
          cases hc : alookup es c with
          | none => simp [getNode, hc] at hq
          | some m0 =>
              simp only [getNode, hc] at hq
              simpa [fsWalkL, hc] using ih hq s

theorem fsWalk_nil_of_notLink (res : List String → Option FsNode) (m : FsNode)
    (hm : isLinkNode m = false) : fsWalk res m [] = some m := by
  cases m with
  | file content => rfl
  | dir es => rfl
  | symlinkTo t => simp [isLinkNode] at hm

theorem fsResolve_of_getNode {r m : FsNode} {p : List String} (fuel : Nat)
    (h : getNode r p = some m) (hm : isLinkNode m = false) :
    fsResolve r (fuel + 1) p = some m := by
  show fsWalk (fun q => fsResolve r fuel q) r p = some m
  have h2 := fsWalk_append_of_getNode (fun q => fsResolve r fuel q) h []
  rw [List.append_nil] at h2
  rw [h2]
  exact fsWalk_nil_of_notLink _ m hm

theorem osExists_of_getNode {r m : FsNode} {p : List String}
    (h : getNode r p = some m) (hm : isLinkNode m = false) :
    osExists r p = true := by
  unfold osExists
  rw [show (40 : Nat) = 39 + 1 from rfl, fsResolve_of_getNode 39 h hm]
  rfl

theorem fsResolve_snoc_none {r : FsNode} {es : List (String × FsNode)}
    {q : List String} {c : String} (fuel : Nat)
    (h : getNode r q = some (FsNode.dir es)) (hc : alookup es c = none) :
    fsResolve r (fuel + 1) (q ++ [c]) = none := by
  show fsWalk (fun s => fsResolve r fuel s) r (q ++ [c]) = none
  rw [fsWalk_append_of_getNode _ h [c]]
  simp [fsWalk, hc]

theorem osLexists_snoc_false {r : FsNode} {es : List (String × FsNode)}
    {q : List String} {c : String}
    (h : getNode r q = some (FsNode.dir es)) (hc : alookup es c = none) :
    osLexists r (q ++ [c]) = false := by
  unfold osLexists
  rw [show (40 : Nat) = 39 + 1 from rfl]
  show (fsWalkL (fun s => fsResolveL r 39 s) r (q ++ [c])).isSome = false
  rw [fsWalkL_append_of_getNode _ h [c]]
  simp [fsWalkL, hc]

theorem lastComp_snoc (q : List String) (c : String) :
    lastComp (q ++ [c]) = c := by
  simp [lastComp]

/-! ### LocalModule (src/python/local_module.py)

State of a `LocalModule` instance: the local filesystem tree, the path of
the local Unbox directory, the backup index (original path string →
quarantine directory name) and the link index (`unboxed_resources`).
Index persistence (`_write_backup_index` / `_write_local_index`) writes
the in-memory mapping to disk and is a no-op in the model.

The Python source calls `unbox_filesystem.abs_path`; that symbol exists
in the repository only as the static method `Filesystem.abs_path`
(src/python/unbox_filesystem.py:84-86).  The model uses its
documented/intended normalization (`abspath(expanduser(normpath(x)))`).

`uuid.uuid4()` results are modelled as explicit `freshId` arguments. -/

structure LinkRecord where
  linkTarget : String
  resourceName : String
  resourceVersion : String
  ignoreNewVersions : Bool
deriving DecidableEq, Repr

structure LocalStore where
  fs : FsNode
  localUnboxDirpath : String
  backupIndex : List (String × String)
  localIndex : List (String × LinkRecord)

/-- Components of `os.path.join(self._local_unbox_dirpath, self._BACKUP_DIRNAME)`. -/
def bComps (st : LocalStore) : List String :=
  pathComps st.localUnboxDirpath ++ ["backups"]

/-- `LocalModule.backup_exists` (local_module.py:256-263): a raw
membership test of the given path in the backup index — the argument is
NOT normalized. -/
def backup_exists (st : LocalStore) (path : String) : Bool :=
  (alookup st.backupIndex path).isSome

/-- `LocalModule.backup_add` (local_module.py:271-295).  Normalizes the
path, requires it to exist and not be backed up already, creates a fresh
quarantine directory under `backups/`, moves the content inside it, and
records the index entry. -/
def backup_add (env : Env) (st : LocalStore) (freshId : String)
    (path : String) : Except Err LocalStore :=
  let p := absPath env path
  if osExists st.fs (pathComps p) = false then Except.error Err.notFound
  else if backup_exists st p then Except.error Err.alreadyExists
  else
    let destPath := bComps st ++ [freshId]
    match mkdirOp st.fs destPath with
    | Except.error e => Except.error e
    | Except.ok fs1 =>
        match shutilMove fs1 (pathComps p) destPath with
        | Except.error e => Except.error e
        | Except.ok fs2 =>
            Except.ok { st with
              fs := fs2
              backupIndex := ainsert st.backupIndex p freshId }

/-- `LocalModule.backup_restore` (local_module.py:297-319).  Normalizes
the path, requires a backup entry, moves the quarantined content back to
the original path, removes the (now empty) quarantine directory, and
deletes the index entry. -/
def backup_restore (env : Env) (st : LocalStore) (path : String) :
    Except Err LocalStore :=
  let p := absPath env path
  match alookup st.backupIndex p with
  | none => Except.error Err.notFound
  | some destId =>
      let b := baseNameStr p
      match shutilMove st.fs (bComps st ++ [destId, b]) (pathComps p) with
      | Except.error e => Except.error e
      | Except.ok fs1 =>
          match rmdirOp fs1 (bComps st ++ [destId]) with
          | Except.error e => Except.error e
          | Except.ok fs2 =>
              Except.ok { st with
                fs := fs2
                backupIndex := aerase st.backupIndex p }

/-- `LocalModule.backup_delete` (local_module.py:321-347).  Normalizes
the path and requires a backup entry.  The deletion branch then executes
the source verbatim: when the quarantined content is a directory the
code references the undefined name `saved_local_filepath`
(a `NameError`, modelled as `pyCrash`); otherwise it calls
`os.remove(path)` — the ORIGINAL path, not the quarantined copy — and
finally `os.rmdir` on the quarantine directory. -/
def backup_delete (env : Env) (st : LocalStore) (path : String) :
    Except Err LocalStore :=
  let p := absPath env path
  match alookup st.backupIndex p with
  | none => Except.error Err.notFound
  | some destId =>
      let b := baseNameStr p
      let savedPath := bComps st ++ [destId, b]
      if osIsDir st.fs savedPath then Except.error Err.pyCrash
      else
        match removeFileOp st.fs (pathComps p) with
        | Except.error e => Except.error e
        | Except.ok fs1 =>
            match rmdirOp fs1 (bComps st ++ [destId]) with
            | Except.error e => Except.error e
            | Except.ok fs2 =>
                Except.ok { st with
                  fs := fs2
                  backupIndex := aerase st.backupIndex p }

/-- `LocalModule.add_link` (local_module.py:166-202).  Both paths pass
through `os.path.abspath`.  Checks: the resource path must exist, nothing
may exist at the link path, and the resource name/version must be
non-empty after stripping.  Then the source executes
`os.symlink(link_path, resource_path)` — creating the symbolic link AT
`resource_path` with target `link_path` — and records the link entry
under `link_path`. -/
def add_link (env : Env) (st : LocalStore) (linkPath resourcePath
    resourceName resourceVersion : String) (ignoreNew : Bool) :
    Except Err LocalStore :=
  let lp := absPathOs env linkPath
  let rp := absPathOs env resourcePath
  if osExists st.fs (pathComps rp) = false then Except.error Err.notFound
  else if osExists st.fs (pathComps lp) then Except.error Err.alreadyExists
  else if strTrim resourceName = "" then Except.error Err.invalidInput
  else if strTrim resourceVersion = "" then Except.error Err.invalidInput
  else
    match symlinkOp st.fs lp (pathComps rp) with
    | Except.error e => Except.error e
    | Except.ok fs1 =>
        Except.ok { st with
          fs := fs1
          localIndex := ainsert st.localIndex lp
            ⟨rp, strTrim resourceName, strTrim resourceVersion, ignoreNew⟩ }

theorem getNode_dir_single (es : List (String × FsNode)) (c : String) :
    getNode (FsNode.dir es) [c] = alookup es c := by
  cases h : alookup es c with
  | none => simp [getNode, h]
  | some m => simp [getNode, h, getNode_nil]

theorem isPref_length {a b : List String} (h : isPref a b = true) :
    a.length ≤ b.length := by
  induction a generalizing b with
  | nil => simp
  | cons x xs ih =>
      cases b with
      | nil => simp [isPref] at h
      | cons y ys =>
          simp only [isPref, Bool.and_eq_true] at h
          simpa using ih h.2

theorem isPref_false_of_longer {a b : List String} (h : b.length < a.length) :
    isPref a b = false := by
  cases hp : isPref a b
  · rfl
  · exact absurd (isPref_length hp) (by omega)

/-- Hypotheses under which `backup_add` fully succeeds: the (normalized)
path decomposes as `qc ++ [bc]`, names content `t` that is not a symbolic
link, is not yet backed up, the `backups` directory exists with
duplicate-free entries, the generated quarantine name is fresh, the
path is disjoint from the backups directory, and the parent directory
of the path has duplicate-free entries. -/
structure BackupPre (env : Env) (st : LocalStore) (freshId p : String)
    (t : FsNode) (qc : List String) (bc : String) : Prop where
  hdecomp : pathComps (absPath env p) = qc ++ [bc]
  hget : getNode st.fs (pathComps (absPath env p)) = some t
  hnotlink : isLinkNode t = false
  hidx : alookup st.backupIndex (absPath env p) = none
  hbdir : ∃ bes, getNode st.fs (bComps st) = some (FsNode.dir bes) ∧
    (akeys bes).Nodup
  hfresh : getNode st.fs (bComps st ++ [freshId]) = none
  hdisj : PDisj (pathComps (absPath env p)) (bComps st)
  hqnodup : ∀ es, getNode st.fs qc = some (FsNode.dir es) → (akeys es).Nodup

/-- Facts about the filesystem produced by a successful `backup_add`. -/
structure AddPost (st : LocalStore) (freshId : String) (t : FsNode)
    (qc : List String) (bc : String) (fs2 : FsNode) : Prop where
  fSrc : getNode fs2 ((bComps st ++ [freshId]) ++ [bc]) = some t
  fQdir : getNode fs2 (bComps st ++ [freshId]) = some (FsNode.dir [(bc, t)])
  fOrig : getNode fs2 (qc ++ [bc]) = none
  fParent : ∃ esq2, getNode fs2 qc = some (FsNode.dir esq2)
  fBdir : ∃ es2, getNode fs2 (bComps st) = some (FsNode.dir es2) ∧
    (akeys es2).Nodup

theorem backup_add_spec {env : Env} {st : LocalStore} {freshId p : String}
    {t : FsNode} {qc : List String} {bc : String}
    (h : BackupPre env st freshId p t qc bc) :
    ∃ fs2, backup_add env st freshId p = Except.ok
        { st with
          fs := fs2
          backupIndex := ainsert st.backupIndex (absPath env p) freshId } ∧
      AddPost st freshId t qc bc fs2 := by
  obtain ⟨bes, hb, hbnd⟩ := h.hbdir
  have hpc := h.hdecomp
  have hex : osExists st.fs (pathComps (absPath env p)) = true :=
    osExists_of_getNode h.hget h.hnotlink
  have hbe : backup_exists st (absPath env p) = false := by
    unfold backup_exists
    rw [h.hidx]
    rfl
  have hlfresh : alookup bes freshId = none := by
    have hf := h.hfresh
    rw [getNode_append, hb] at hf
    simpa [getNode_dir_single] using hf
  have hlex : osLexists st.fs (bComps st ++ [freshId]) = false :=
    osLexists_snoc_false hb hlfresh
  obtain ⟨fs1, hset1, hbp1⟩ := setNode_snoc_dir freshId (FsNode.dir []) hb
  have hmk : mkdirOp st.fs (bComps st ++ [freshId]) = Except.ok fs1 := by
    simp [mkdirOp, hlex, hset1]
  have hfs1bq : getNode fs1 (bComps st ++ [freshId]) = some (FsNode.dir []) :=
    getNode_setNode_self hset1
  have hdisjbq : PDisj (pathComps (absPath env p)) (bComps st ++ [freshId]) :=
    PDisj_extend h.hdisj [freshId]
  have hdisjbq' : PDisj (qc ++ [bc]) (bComps st ++ [freshId]) := by
    rw [← hpc]
    exact hdisjbq
  have hfs1pc : getNode fs1 (pathComps (absPath env p)) = some t := by
    rw [getNode_setNode_ne hset1 hdisjbq.symm]
    exact h.hget
  have hfs1pc' : getNode fs1 (qc ++ [bc]) = some t := by
    rw [← hpc]
    exact hfs1pc
  have hget' : getNode st.fs (qc ++ [bc]) = some t := by
    rw [← hpc]
    exact h.hget
  obtain ⟨esq0, hq0, hl0⟩ := getNode_snoc_dir hget'
  have hq0nd : (akeys esq0).Nodup := h.hqnodup esq0 hq0
  have hqcpref : isPref qc (qc ++ [bc]) = true := isPref_append qc [bc]
  have hnotbq_qc : isPref (bComps st ++ [freshId]) qc = false := by
    cases hp2 : isPref (bComps st ++ [freshId]) qc
    · rfl
    · exfalso
      have h1 : isPref (bComps st) (bComps st ++ [freshId]) = true :=
        isPref_append _ _
      have h2 : isPref (bComps st) qc = true := isPref_trans h1 hp2
      have h3 : isPref (bComps st) (qc ++ [bc]) = true :=
        isPref_trans h2 hqcpref
      rw [← hpc] at h3
      rw [h.hdisj.2] at h3
      exact Bool.noConfusion h3
  obtain ⟨esq1, hq1, hnd1f⟩ := keepDir_set hset1 hq0 hnotbq_qc
  have hq1nd : (akeys esq1).Nodup := hnd1f hq0nd
  have hl1 : alookup esq1 bc = some t := by
    have hx := hfs1pc'
    rw [getNode_append, hq1] at hx
    simpa [getNode_dir_single] using hx
  have hres1 : fsResolve fs1 40 (bComps st ++ [freshId]) =
      some (FsNode.dir []) := by
    have hx := fsResolve_of_getNode (m := FsNode.dir []) 39 hfs1bq (by rfl)
    simpa using hx
  obtain ⟨fs1r, hrem1, hq1r⟩ := removeNode_snoc_dir hq1 hl1
  have hfs1rbq : getNode fs1r (bComps st ++ [freshId]) =
      some (FsNode.dir []) := by
    rw [getNode_removeNode_ne hrem1 hdisjbq']
    exact hfs1bq
  obtain ⟨fs2, hset2, hbq2⟩ := setNode_snoc_dir bc t hfs1rbq
  have hmove : shutilMove fs1 (pathComps (absPath env p))
      (bComps st ++ [freshId]) = Except.ok fs2 := by
    have hset2' : setNode fs1r (bComps st ++ [freshId, bc]) t = some fs2 := by
      simpa using hset2
    unfold shutilMove
    rw [hfs1pc, hres1, hpc, lastComp_snoc, hrem1]
    simp [hset2']
  refine ⟨fs2, ?_, ?_⟩
  · simp [backup_add, hex, hbe, hmk, hmove]
  · constructor
    · exact getNode_setNode_self hset2
    · simpa [ainsert] using hbq2
    · have hpcn : getNode fs1r (qc ++ [bc]) = none := by
        rw [getNode_append, hq1r]
        simp [getNode_dir_single, alookup_aerase_self esq1 bc hq1nd]
      have hd2 : PDisj ((bComps st ++ [freshId]) ++ [bc]) (qc ++ [bc]) :=
        (PDisj_extend hdisjbq' [bc]).symm
      rw [getNode_setNode_ne hset2 hd2]
      exact hpcn
    · have hnotbqc_qc : isPref ((bComps st ++ [freshId]) ++ [bc]) qc = false := by
        cases hp2 : isPref ((bComps st ++ [freshId]) ++ [bc]) qc
        · rfl
        · exfalso
          have h1 : isPref (bComps st ++ [freshId])
              ((bComps st ++ [freshId]) ++ [bc]) = true := isPref_append _ _
          have h2 := isPref_trans h1 hp2
          rw [hnotbq_qc] at h2
          exact Bool.noConfusion h2
      obtain ⟨esq2, hq2, _⟩ := keepDir_set hset2 hq1r hnotbqc_qc
      exact ⟨esq2, hq2⟩
    · have hbp1nd : (akeys (ainsert bes freshId (FsNode.dir []))).Nodup :=
        akeys_nodup_ainsert bes freshId (FsNode.dir []) hbnd
      have hprf : isPref (qc ++ [bc]) (bComps st) = false := by
        rw [← hpc]
        exact h.hdisj.1
      obtain ⟨esb1, hb1, hnd1⟩ := keepDir_remove hrem1 hbp1 hprf
      have hprf2 : isPref ((bComps st ++ [freshId]) ++ [bc]) (bComps st) = false := by
        apply isPref_false_of_longer
        simp
      obtain ⟨esb2, hb2, hnd2⟩ := keepDir_set hset2 hb1 hprf2
      exact ⟨esb2, hb2, hnd2 (hnd1 hbp1nd)⟩

theorem isPref_extend_false {bp qc : List String} {bc : String}
    (hd : isPref bp (qc ++ [bc]) = false) (ext : List String) :
    isPref (bp ++ ext) qc = false := by
  cases hp : isPref (bp ++ ext) qc
  · rfl
  · exfalso
    have h1 : isPref bp (bp ++ ext) = true := isPref_append _ _
    have h2 : isPref bp qc = true := isPref_trans h1 hp
    have h3 : isPref bp (qc ++ [bc]) = true := isPref_trans h2 (isPref_append _ _)
    rw [hd] at h3
    exact Bool.noConfusion h3

theorem backup_restore_spec {env : Env} {st : LocalStore} {freshId p : String}
    {t : FsNode} {qc : List String} {bc : String} {fs2 : FsNode}
    (hpre : BackupPre env st freshId p t qc bc)
    (hpost : AddPost st freshId t qc bc fs2) :
    ∃ st2, backup_restore env
        { st with
          fs := fs2
          backupIndex := ainsert st.backupIndex (absPath env p) freshId } p =
      Except.ok st2 ∧
      st2.backupIndex = st.backupIndex ∧
      st2.localUnboxDirpath = st.localUnboxDirpath ∧
      getNode st2.fs (qc ++ [bc]) = some t ∧
      getNode st2.fs (bComps st ++ [freshId]) = none := by
  have hpc := hpre.hdecomp
  have hbn : baseNameStr (absPath env p) = bc := by
    unfold baseNameStr
    rw [hpc, lastComp_snoc]
  have hsrc : getNode fs2 (bComps st ++ [freshId, bc]) = some t := by
    simpa using hpost.fSrc
  obtain ⟨esq2, hq2⟩ := hpost.fParent
  have hlq2 : alookup esq2 bc = none := by
    have hx := hpost.fOrig
    rw [getNode_append, hq2] at hx
    simpa [getNode_dir_single] using hx
  have hresnone : fsResolve fs2 40 (qc ++ [bc]) = none := by
    have hx := fsResolve_snoc_none 39 hq2 hlq2
    simpa using hx
  have hqdir : getNode fs2 (bComps st ++ [freshId]) =
      some (FsNode.dir [(bc, t)]) := hpost.fQdir
  have hlbq : alookup [(bc, t)] bc = some t := by simp [alookup]
  obtain ⟨fs3, hrem3, hq3⟩ := removeNode_snoc_dir hqdir hlbq
  have hq3' : getNode fs3 (bComps st ++ [freshId]) = some (FsNode.dir []) := by
    simpa [aerase] using hq3
  have hrem3' : removeNode fs2 (bComps st ++ [freshId, bc]) = some fs3 := by
    simpa using hrem3
  -- prefix facts
  have hd1 : isPref (bComps st) (qc ++ [bc]) = false := by
    rw [← hpc]
    exact hpre.hdisj.2
  have hd1' : isPref (qc ++ [bc]) (bComps st) = false := by
    rw [← hpc]
    exact hpre.hdisj.1
  have hnotbqc_qc : isPref ((bComps st ++ [freshId]) ++ [bc]) qc = false := by
    have hx := isPref_extend_false hd1 [freshId, bc]
    simpa using hx
  have hdisjbq' : PDisj (qc ++ [bc]) (bComps st ++ [freshId]) := by
    rw [← hpc]
    exact PDisj_extend hpre.hdisj [freshId]
  -- parent of the original path after taking the item out of quarantine
  obtain ⟨esq3, hq3p, _⟩ := keepDir_remove hrem3 hq2 hnotbqc_qc
  obtain ⟨fs4, hset4, hq4⟩ := setNode_snoc_dir bc t hq3p
  have hmoveR : shutilMove fs2 (bComps st ++ [freshId, bc])
      (pathComps (absPath env p)) = Except.ok fs4 := by
    unfold shutilMove
    rw [hsrc, hpc, hresnone, hrem3']
    simp [hset4]
  -- the quarantine directory is empty afterwards
  have hfs4bq : getNode fs4 (bComps st ++ [freshId]) = some (FsNode.dir []) := by
    rw [getNode_setNode_ne hset4 hdisjbq']
    exact hq3'
  -- entries of the backups directory stay duplicate-free
  obtain ⟨es2, hb2, hnd2⟩ := hpost.fBdir
  have hlong1 : isPref ((bComps st ++ [freshId]) ++ [bc]) (bComps st) = false := by
    apply isPref_false_of_longer
    simp
  have hrem3'' : removeNode fs2 ((bComps st ++ [freshId]) ++ [bc]) = some fs3 := by
    simpa using hrem3'
  obtain ⟨es3, hb3, hnd3f⟩ := keepDir_remove hrem3'' hb2 hlong1
  obtain ⟨es4, hb4, hnd4f⟩ := keepDir_set hset4 hb3 hd1'
  have hnd4 : (akeys es4).Nodup := hnd4f (hnd3f hnd2)
  have hlk4 : alookup es4 freshId = some (FsNode.dir []) := by
    have hx := hfs4bq
    rw [getNode_append, hb4] at hx
    simpa [getNode_dir_single] using hx
  obtain ⟨fs5, hrem5, hb5⟩ := removeNode_snoc_dir hb4 hlk4
  have hrmd : rmdirOp fs4 (bComps st ++ [freshId]) = Except.ok fs5 := by
    unfold rmdirOp
    rw [hfs4bq, hrem5]
  refine ⟨{ st with
      fs := fs5
      backupIndex := aerase (ainsert st.backupIndex (absPath env p) freshId)
        (absPath env p) }, ?_, ?_, ?_, ?_, ?_⟩
  · have hbc : bComps { st with
        fs := fs2
        backupIndex := ainsert st.backupIndex (absPath env p) freshId } =
      bComps st := rfl
    simp [backup_restore, hbc, alookup_ainsert_self, hbn, hmoveR, hrmd]
  · show aerase (ainsert st.backupIndex (absPath env p) freshId)
        (absPath env p) = st.backupIndex
    exact aerase_ainsert_fresh _ _ _ hpre.hidx
  · rfl
  · show getNode fs5 (qc ++ [bc]) = some t
    rw [getNode_removeNode_ne hrem5 hdisjbq'.symm]
    exact getNode_setNode_self hset4
  · show getNode fs5 (bComps st ++ [freshId]) = none
    rw [getNode_append, hb5]
    simp [getNode_dir_single, alookup_aerase_self es4 freshId hnd4]

/-- C7: for a path that exists and is not already backed up (with the
bookkeeping side conditions the code needs: the path decomposes into a
parent and basename, the content is not a symbolic link, the `backups`
directory exists, the generated quarantine name is fresh, the path does
not overlap the backups directory, and directory listings are
duplicate-free), `backup_add` followed by `backup_restore` succeeds,
restores the very same content node at the original path, returns the
backup index to its previous state (removing the entry), and leaves no
quarantine subdirectory under the backups directory. -/
theorem backup_add_restore_roundtrip (env : Env) (st : LocalStore)
    (freshId p : String) (t : FsNode) (qc : List String) (bc : String)
    (h : BackupPre env st freshId p t qc bc) :
    ∃ st1 st2, backup_add env st freshId p = Except.ok st1 ∧
      backup_restore env st1 p = Except.ok st2 ∧
      getNode st2.fs (pathComps (absPath env p)) = some t ∧
      st2.backupIndex = st.backupIndex ∧
      getNode st2.fs (bComps st ++ [freshId]) = none := by
  obtain ⟨fs2, hadd, hpost⟩ := backup_add_spec h
  obtain ⟨st2, hres, hidx2, _, hget2, hbq2⟩ := backup_restore_spec h hpost
  refine ⟨_, st2, hadd, hres, ?_, hidx2, hbq2⟩
  rw [h.hdecomp]
  exact hget2

/-! Witness fixtures: a small filesystem with a home directory containing
the local Unbox directory (with its `backups` subdirectory) and a data
file. -/

def envW : Env := ⟨"/home/u", "/home/u"⟩

def fsW : FsNode :=
  FsNode.dir [("home", FsNode.dir [("u", FsNode.dir
    [("unbox", FsNode.dir [("backups", FsNode.dir [])]),
     ("data", FsNode.dir [("f.txt", FsNode.file "hello")])])])]

def stW : LocalStore := ⟨fsW, "/home/u/unbox", [], []⟩

theorem backup_add_restore_roundtrip_witness :
    BackupPre envW stW "q1" "/home/u/data/f.txt" (FsNode.file "hello")
      ["home", "u", "data"] "f.txt" ∧
    ∃ st1 st2, backup_add envW stW "q1" "/home/u/data/f.txt" = Except.ok st1 ∧
      backup_restore envW st1 "/home/u/data/f.txt" = Except.ok st2 ∧
      getNode st2.fs (pathComps (absPath envW "/home/u/data/f.txt")) =
        some (FsNode.file "hello") ∧
      st2.backupIndex = stW.backupIndex ∧
      getNode st2.fs (bComps stW ++ ["q1"]) = none := by
  have hpre : BackupPre envW stW "q1" "/home/u/data/f.txt"
      (FsNode.file "hello") ["home", "u", "data"] "f.txt" := by
    refine ⟨by decide, rfl, rfl, rfl, ⟨[], rfl, by simp [akeys]⟩, rfl,
      ⟨by decide, by decide⟩, ?_⟩
    intro es hes
    rw [show getNode stW.fs ["home", "u", "data"] =
      some (FsNode.dir [("f.txt", FsNode.file "hello")]) from rfl] at hes
    injection hes with h1
    injection h1 with h2
    rw [← h2]
    simp [akeys]
  exact ⟨hpre, backup_add_restore_roundtrip envW stW "q1" "/home/u/data/f.txt"
    (FsNode.file "hello") ["home", "u", "data"] "f.txt" hpre⟩

/-- C10: `backup_exists` tests its argument against the backup index
WITHOUT normalizing it, while `backup_add`, `backup_restore` and
`backup_delete` normalize theirs.  For any path `p` whose normalized form
differs from `p` (e.g. a relative path), in a store whose index keys are
all normalized: after a successful `backup_add p`, `backup_exists p`
returns `false` while `backup_exists (absPath p)` returns `true`, yet
`backup_restore p` succeeds and `backup_delete p` passes its existence
check (its failure, if any, is never `notFound`). -/
theorem backup_exists_skips_normalization (env : Env) (st : LocalStore)
    (freshId p : String) (t : FsNode) (qc : List String) (bc : String)
    (h : BackupPre env st freshId p t qc bc)
    (hne : absPath env p ≠ p)
    (hnorm : ∀ k ∈ akeys st.backupIndex, absPath env k = k) :
    ∃ st1, backup_add env st freshId p = Except.ok st1 ∧
      backup_exists st1 p = false ∧
      backup_exists st1 (absPath env p) = true ∧
      (∃ st2, backup_restore env st1 p = Except.ok st2) ∧
      backup_delete env st1 p ≠ Except.error Err.notFound := by
  obtain ⟨fs2, hadd, hpost⟩ := backup_add_spec h
  have hrawnone : alookup st.backupIndex p = none :=
    (alookup_eq_none_iff _ _).mpr (fun hm => hne (hnorm p hm))
  have hbn : baseNameStr (absPath env p) = bc := by
    unfold baseNameStr
    rw [h.hdecomp, lastComp_snoc]
  refine ⟨_, hadd, ?_, ?_, ?_, ?_⟩
  · show (alookup (ainsert st.backupIndex (absPath env p) freshId) p).isSome
      = false
    rw [alookup_ainsert_ne _ _ _ _ hne, hrawnone]
    rfl
  · show (alookup (ainsert st.backupIndex (absPath env p) freshId)
      (absPath env p)).isSome = true
    rw [alookup_ainsert_self]
    rfl
  · obtain ⟨st2, hres, _⟩ := backup_restore_spec h hpost
    exact ⟨st2, hres⟩
  · have hbc : bComps { st with
        fs := fs2
        backupIndex := ainsert st.backupIndex (absPath env p) freshId } =
      bComps st := rfl
    have horig : getNode fs2 (pathComps (absPath env p)) = none := by
      rw [h.hdecomp]
      exact hpost.fOrig
    have hrf : removeFileOp fs2 (pathComps (absPath env p)) =
        Except.error Err.ioFailure := by
      unfold removeFileOp
      rw [horig]
    have hdel : backup_delete env { st with
        fs := fs2
        backupIndex := ainsert st.backupIndex (absPath env p) freshId } p =
        (if osIsDir fs2 (bComps st ++ [freshId, bc])
          then Except.error Err.pyCrash else Except.error Err.ioFailure) := by
      simp only [backup_delete, hbc]
      rw [alookup_ainsert_self, hbn]
      cases hdir : osIsDir fs2 (bComps st ++ [freshId, bc])
      · simp [hdir, hrf]
      · simp [hdir]
    rw [hdel]
    cases hdir : osIsDir fs2 (bComps st ++ [freshId, bc]) <;> simp

theorem backup_exists_skips_normalization_witness :
    (BackupPre envW stW "q1" "data/f.txt" (FsNode.file "hello")
      ["home", "u", "data"] "f.txt" ∧
     absPath envW "data/f.txt" ≠ "data/f.txt" ∧
     (∀ k ∈ akeys stW.backupIndex, absPath envW k = k)) ∧
    ∃ st1, backup_add envW stW "q1" "data/f.txt" = Except.ok st1 ∧
      backup_exists st1 "data/f.txt" = false ∧
      backup_exists st1 (absPath envW "data/f.txt") = true ∧
      (∃ st2, backup_restore envW st1 "data/f.txt" = Except.ok st2) ∧
      backup_delete envW st1 "data/f.txt" ≠ Except.error Err.notFound := by
  have hpre : BackupPre envW stW "q1" "data/f.txt"
      (FsNode.file "hello") ["home", "u", "data"] "f.txt" := by
    refine ⟨by decide, rfl, rfl, rfl, ⟨[], rfl, by simp [akeys]⟩, rfl,
      ⟨by decide, by decide⟩, ?_⟩
    intro es hes
    rw [show getNode stW.fs ["home", "u", "data"] =
      some (FsNode.dir [("f.txt", FsNode.file "hello")]) from rfl] at hes
    injection hes with h1
    injection h1 with h2
    rw [← h2]
    simp [akeys]
  have hne : absPath envW "data/f.txt" ≠ "data/f.txt" := by decide
  have hnorm : ∀ k ∈ akeys stW.backupIndex, absPath envW k = k := by
    intro k hk
    simp [stW, akeys] at hk
  exact ⟨⟨hpre, hne, hnorm⟩,
    backup_exists_skips_normalization envW stW "q1" "data/f.txt"
      (FsNode.file "hello") ["home", "u", "data"] "f.txt" hpre hne hnorm⟩

/-! Fixtures for the `add_link` and `backup_delete` evaluations. -/

def envL : Env := ⟨"/h", "/h"⟩

def fsL : FsNode :=
  FsNode.dir [("db", FsNode.dir [("res", FsNode.file "content")]),
              ("h", FsNode.dir [])]

def stL : LocalStore := ⟨fsL, "/h/unbox", [], []⟩

/-- C6 (divergence): with all of the claim's preconditions satisfied — the
resource path `/db/res` exists, nothing exists at the link path `/h/lnk`,
and the resource name and version are non-empty — `add_link` does NOT
create a symbolic link at the link path: the source calls
`os.symlink(link_path, resource_path)` (local_module.py:192) with the
arguments swapped, attempting to create the link AT the resource path,
which already exists, so the call fails with an `OSError`
(modelled `ioFailure`) and no link or ledger entry is ever created. -/
theorem add_link_swapped_symlink_args :
    osExists stL.fs (pathComps (absPathOs envL "/db/res")) = true ∧
    osExists stL.fs (pathComps (absPathOs envL "/h/lnk")) = false ∧
    strTrim "nm" ≠ "" ∧ strTrim "1.0" ≠ "" ∧
    add_link envL stL "/h/lnk" "/db/res" "nm" "1.0" false =
      Except.error Err.ioFailure :=
  ⟨rfl, rfl, by decide, by decide, rfl⟩

def envD : Env := ⟨"/u", "/u"⟩

def fsD : FsNode :=
  FsNode.dir [("u", FsNode.dir [("unbox", FsNode.dir [("backups", FsNode.dir
    [("id1", FsNode.dir [("f", FsNode.file "data")]),
     ("id2", FsNode.dir [("d", FsNode.dir [("x", FsNode.file "y")])])])])])]

def stD : LocalStore := ⟨fsD, "/u/unbox", [("/u/f", "id1"), ("/u/d", "id2")], []⟩

/-- C8 (divergence): for active backup entries, `backup_delete` fails in
both content shapes instead of discarding the quarantined content.  When
the quarantined content is a file, the file branch runs
`os.remove(path)` on the ORIGINAL path (local_module.py:342), which no
longer exists, raising an `OSError` (`ioFailure`); when it is a
directory, the branch references the undefined name
`saved_local_filepath` (local_module.py:340), a `NameError` (`pyCrash`).
Either way the quarantined content (last conjunct) survives and the
index entries remain. -/
theorem backup_delete_misdirected_remove :
    backup_exists stD "/u/f" = true ∧
    backup_exists stD "/u/d" = true ∧
    backup_delete envD stD "/u/f" = Except.error Err.ioFailure ∧
    backup_delete envD stD "/u/d" = Except.error Err.pyCrash ∧
    getNode stD.fs (bComps stD ++ ["id1", "f"]) = some (FsNode.file "data") :=
  ⟨rfl, rfl, rfl, rfl, rfl⟩

/-! ### DropboxModule (src/python/dropbox_module.py)

State of a `DropboxModule` instance: the Unbox directory path inside the
shared volume, the in-memory index (resource name → resource record) and
a model of the on-volume directory layout (parent directories, version
subdirectories, and the `current` symlink target per parent directory).
`_write_index` persists the in-memory index and is a no-op in the model.
`uuid.uuid4()` results are modelled as explicit `freshParent` arguments;
the local filesystem consulted by `add_resource` is passed in as `lfs`.

Content copying: `shutil.copy` of a file into the freshly created
version directory succeeds; `shutil.copytree` of a directory resource
targets the version directory that was just created with `os.mkdir`
(dropbox_module.py:214/223 and 307/314), and Python 2's `copytree`
requires its destination not to exist, so it raises — modelled as
`ioFailure` at the copy step. -/

structure VersionRecord where
  dependencies : List String
deriving DecidableEq, Repr

structure ResourceRecord where
  parentDirname : String
  currentVersion : String
  versionsData : List (String × VersionRecord)
deriving DecidableEq, Repr

structure DropboxDisk where
  parents : List String
  versionDirs : List (String × String)
  curLinks : List (String × String)
deriving DecidableEq, Repr

structure DropboxStore where
  unboxDirpath : String
  index : List (String × ResourceRecord)
  disk : DropboxDisk
deriving DecidableEq, Repr

/-- `os.path.join` of an absolute base with one relative component. -/
def strJoin (a b : String) : String := a ++ "/" ++ b

/-- `DropboxModule.resource_exists` (dropbox_module.py:88-97). -/
def resource_exists (st : DropboxStore) (r : String) : Bool :=
  (alookup st.index r).isSome

/-- `DropboxModule.version_exists` (dropbox_module.py:99-114); raises
`NotFound` when the resource itself is missing. -/
def version_exists (st : DropboxStore) (r v : String) : Except Err Bool :=
  match alookup st.index r with
  | none => Except.error Err.notFound
  | some rd => Except.ok (alookup rd.versionsData v).isSome

/-- `DropboxModule.resource_info` (dropbox_module.py:128-146). -/
def resource_info (st : DropboxStore) (r : String) :
    Except Err (String × String × List String) :=
  match alookup st.index r with
  | none => Except.error Err.notFound
  | some rd => Except.ok (rd.parentDirname, rd.currentVersion, akeys rd.versionsData)

/-- `DropboxModule.resource_path` (dropbox_module.py:148-174).  With no
version the path goes through the `current` symlink component.  When a
version IS supplied (and exists), the source overwrites the supplied
version with the resource's current version before building the path
(dropbox_module.py:171): the returned path names the current version's
directory, not the requested one. -/
def resource_path (st : DropboxStore) (r : String) (version : Option String) :
    Except Err String :=
  match alookup st.index r with
  | none => Except.error Err.notFound
  | some rd =>
      match version with
      | none =>
          Except.ok (strJoin (strJoin (strJoin st.unboxDirpath
            rd.parentDirname) "current") r)
      | some v =>
          if (alookup rd.versionsData v).isSome = false then
            Except.error Err.notFound
          else
            Except.ok (strJoin (strJoin (strJoin st.unboxDirpath
              rd.parentDirname) rd.currentVersion) r)

/-- `DropboxModule.add_resource` (dropbox_module.py:176-239).  Checks in
source order: the local path must exist and be a file or directory, its
basename must not collide with a tracked resource, the version must be
non-empty after stripping and must not be the reserved keyword.  Side
effects: create the parent directory, the version directory and the
`current` symlink, then copy the content (directory sources fail at
`copytree` as described above), then commit the index entry.  Returns
the new store and the destination directory path. -/
def add_resource (env : Env) (lfs : FsNode) (st : DropboxStore)
    (freshParent localPath version : String)
    (dependencies : Option (List String)) :
    Except Err (DropboxStore × String) :=
  let deps := dependencies.getD []
  let lp := absPath env localPath
  let resourceFilename := baseNameStr lp
  if osExists lfs (pathComps lp) = false then Except.error Err.notFound
  else if (osIsDir lfs (pathComps lp) || osIsFile lfs (pathComps lp)) = false
    then Except.error Err.invalidInput
  else if (alookup st.index resourceFilename).isSome then
    Except.error Err.alreadyExists
  else if strTrim version = "" then Except.error Err.invalidInput
  else
    let v := strTrim version
    if v = "current" then Except.error Err.invalidOperation
    else if freshParent ∈ st.disk.parents then Except.error Err.ioFailure
    else if (freshParent, v) ∈ st.disk.versionDirs then Except.error Err.ioFailure
    else if (alookup st.disk.curLinks freshParent).isSome then
      Except.error Err.ioFailure
    else if osIsDir lfs (pathComps lp) then Except.error Err.ioFailure
    else
      let versionDirpath := strJoin (strJoin st.unboxDirpath freshParent) v
      let disk' : DropboxDisk :=
        ⟨freshParent :: st.disk.parents,
         (freshParent, v) :: st.disk.versionDirs,
         ainsert st.disk.curLinks freshParent versionDirpath⟩
      let rrec : ResourceRecord := ⟨freshParent, v, [(v, ⟨deps⟩)]⟩
      Except.ok ({ st with
        index := ainsert st.index resourceFilename rrec
        disk := disk' }, versionDirpath)

/-- `DropboxModule.delete_resource` (dropbox_module.py:241-256): removes
the index entry and the whole storage directory tree (`shutil.rmtree`
fails if the parent directory is missing on disk). -/
def delete_resource (st : DropboxStore) (r : String) :
    Except Err DropboxStore :=
  match alookup st.index r with
  | none => Except.error Err.notFound
  | some rd =>
      if rd.parentDirname ∈ st.disk.parents then
        Except.ok { st with
          index := aerase st.index r
          disk := ⟨st.disk.parents.filter (fun d => d ≠ rd.parentDirname),
                   st.disk.versionDirs.filter
                     (fun pv => pv.1 ≠ rd.parentDirname),
                   aerase st.disk.curLinks rd.parentDirname⟩ }
      else Except.error Err.ioFailure

/-- `DropboxModule.version_info` (dropbox_module.py:261-281): the
dependency set of a resource version. -/
def version_info (st : DropboxStore) (r v : String) :
    Except Err (List String) :=
  match alookup st.index r with
  | none => Except.error Err.notFound
  | some rd =>
      match alookup rd.versionsData v with
      | none => Except.error Err.notFound
      | some vr => Except.ok vr.dependencies

/-- `DropboxModule.copy_version` (dropbox_module.py:283-328).  The new
version name must be non-empty after stripping and not the reserved
keyword; the resource must exist, and `version_exists` must hold of the
SOURCE version — which is never true for the keyword `"current"`, so the
`source_version == "current"` handling further down
(dropbox_module.py:309-310) is unreachable.  On success the new version
record's dependency set is built with `set(source_dependencies)` — a
fresh copy — when `copy_dependencies` is true, and empty otherwise. -/
def copy_version (st : DropboxStore) (r sourceV newV : String)
    (copyDependencies : Bool) : Except Err DropboxStore :=
  if strTrim newV = "" then Except.error Err.invalidInput
  else
    let nv := strTrim newV
    if nv = "current" then Except.error Err.invalidOperation
    else
      match alookup st.index r with
      | none => Except.error Err.notFound
      | some rd =>
          if (alookup rd.versionsData sourceV).isSome = false then
            Except.error Err.notFound
          else if (rd.parentDirname, nv) ∈ st.disk.versionDirs then
            Except.error Err.ioFailure
          else if (if sourceV = "current"
              then (alookup st.disk.curLinks rd.parentDirname).isSome = false
              else (rd.parentDirname, sourceV) ∉ st.disk.versionDirs) then
            Except.error Err.ioFailure
          else
            match alookup rd.versionsData sourceV with
            | none => Except.error Err.pyCrash
            | some svr =>
                let newDeps := if copyDependencies then svr.dependencies else []
                let vd' := ainsert rd.versionsData nv ⟨newDeps⟩
                let disk' := { st.disk with
                  versionDirs := (rd.parentDirname, nv) :: st.disk.versionDirs }
                Except.ok { st with
                  index := ainsert st.index r { rd with versionsData := vd' }
                  disk := disk' }

/-- `DropboxModule.add_version_dependency` (dropbox_module.py:330-351):
idempotent set insertion; when the dependency is already present nothing
changes (and the index flush is skipped). -/
def add_version_dependency (st : DropboxStore) (r v d : String) :
    Except Err DropboxStore :=
  match alookup st.index r with
  | none => Except.error Err.notFound
  | some rd =>
      match alookup rd.versionsData v with
      | none => Except.error Err.notFound
      | some vr =>
          if strTrim d = "" then Except.error Err.invalidInput
          else if d ∈ vr.dependencies then Except.ok st
          else
            let vd' := ainsert rd.versionsData v ⟨vr.dependencies ++ [d]⟩
            Except.ok { st with
              index := ainsert st.index r { rd with versionsData := vd' } }

/-- `DropboxModule.delete_version_dependency` (dropbox_module.py:353-373):
`set.discard` — removal that is a no-op when absent. -/
def delete_version_dependency (st : DropboxStore) (r v d : String) :
    Except Err DropboxStore :=
  match alookup st.index r with
  | none => Except.error Err.notFound
  | some rd =>
      match alookup rd.versionsData v with
      | none => Except.error Err.notFound
      | some vr =>
          if strTrim d = "" then Except.error Err.invalidInput
          else
            let vd' := ainsert rd.versionsData v
              ⟨vr.dependencies.filter (fun x => x ≠ d)⟩
            Except.ok { st with
              index := ainsert st.index r { rd with versionsData := vd' } }

/-- `DropboxModule.change_current_version` (dropbox_module.py:375-401):
re-points the `current` symlink (`os.unlink` of the existing link — which
must exist — then `os.symlink` to `<parent>/<version>/<resource>`), and
updates `currentVersion` in the index. -/
def change_current_version (st : DropboxStore) (r v : String) :
    Except Err DropboxStore :=
  match alookup st.index r with
  | none => Except.error Err.notFound
  | some rd =>
      if (alookup rd.versionsData v).isSome = false then
        Except.error Err.notFound
      else
        match alookup st.disk.curLinks rd.parentDirname with
        | none => Except.error Err.ioFailure
        | some _ =>
            let target := strJoin (strJoin (strJoin st.unboxDirpath
              rd.parentDirname) v) r
            let disk' := { st.disk with
              curLinks := ainsert st.disk.curLinks rd.parentDirname target }
            Except.ok { st with
              index := ainsert st.index r { rd with currentVersion := v }
              disk := disk' }

/-- `DropboxModule.delete_version` (dropbox_module.py:403-431).  Checks
in source order: the version must not be the reserved keyword, the
resource and version must exist, the version must not be the current
one, and other versions must remain; then the version directory is
removed (`shutil.rmtree` fails if missing) and the index entry erased. -/
def delete_version (st : DropboxStore) (r v : String) :
    Except Err DropboxStore :=
  if v = "current" then Except.error Err.invalidOperation
  else
    match alookup st.index r with
    | none => Except.error Err.notFound
    | some rd =>
        if (alookup rd.versionsData v).isSome = false then
          Except.error Err.notFound
        else if v = rd.currentVersion then Except.error Err.invalidOperation
        else if rd.versionsData.length ≤ 1 then
          Except.error Err.invalidOperation
        else if (rd.parentDirname, v) ∈ st.disk.versionDirs then
          let vd' := aerase rd.versionsData v
          let disk' := { st.disk with
            versionDirs := st.disk.versionDirs.filter
              (fun pv => pv ≠ (rd.parentDirname, v)) }
          Except.ok { st with
            index := ainsert st.index r { rd with versionsData := vd' }
            disk := disk' }
        else Except.error Err.ioFailure

/-- The mutating operations of the store, as one type. -/
inductive DbOp where
  | addResource (freshParent localPath version : String)
      (dependencies : Option (List String))
  | copyVersion (r sourceV newV : String) (copyDependencies : Bool)
  | changeCurrentVersion (r v : String)
  | deleteVersion (r v : String)
  | addVersionDependency (r v d : String)
  | deleteVersionDependency (r v d : String)
  | deleteResource (r : String)

def applyDbOp (env : Env) (lfs : FsNode) (st : DropboxStore) :
    DbOp → Except Err DropboxStore
  | DbOp.addResource fp lp v deps =>
      (add_resource env lfs st fp lp v deps).map Prod.fst
  | DbOp.copyVersion r sv nv cd => copy_version st r sv nv cd
  | DbOp.changeCurrentVersion r v => change_current_version st r v
  | DbOp.deleteVersion r v => delete_version st r v
  | DbOp.addVersionDependency r v d => add_version_dependency st r v d
  | DbOp.deleteVersionDependency r v d => delete_version_dependency st r v d
  | DbOp.deleteResource r => delete_resource st r

/-- The invariant of claim C1: every tracked resource's current version
is a key of its versions mapping, which is non-empty. -/
def StoreInv (st : DropboxStore) : Prop :=
  ∀ pr ∈ st.index, pr.2.currentVersion ∈ akeys pr.2.versionsData ∧
    pr.2.versionsData ≠ []

/-- Well-formedness of a reachable store: the C1 invariant plus the facts
every committed operation maintains — the reserved keyword is never a
version key, version keys are duplicate-free, every version has its
directory on disk, and every resource's parent has a `current` link. -/
def StoreWf (st : DropboxStore) : Prop :=
  ∀ pr ∈ st.index,
    pr.2.currentVersion ∈ akeys pr.2.versionsData ∧
    pr.2.versionsData ≠ [] ∧
    "current" ∉ akeys pr.2.versionsData ∧
    (akeys pr.2.versionsData).Nodup ∧
    (∀ v ∈ akeys pr.2.versionsData,
      (pr.2.parentDirname, v) ∈ st.disk.versionDirs) ∧
    (alookup st.disk.curLinks pr.2.parentDirname).isSome

theorem mem_ainsert {κ α : Type} [DecidableEq κ] {pr : κ × α}
    {l : List (κ × α)} {k : κ} {v : α} (h : pr ∈ ainsert l k v) :
    pr = (k, v) ∨ pr ∈ l := by
  induction l with
  | nil => simpa [ainsert] using h
  | cons p0 l ih =>
      obtain ⟨k0, v0⟩ := p0
      by_cases h0 : k0 = k
      · simp only [ainsert, if_pos h0, List.mem_cons] at h
        rcases h with h | h
        · exact Or.inl h
        · exact Or.inr (List.mem_cons_of_mem _ h)
      · simp only [ainsert, if_neg h0, List.mem_cons] at h
        rcases h with h | h
        · exact Or.inr (by simp [h])
        · rcases ih h with h | h
          · exact Or.inl h
          · exact Or.inr (List.mem_cons_of_mem _ h)

theorem mem_aerase_sub {κ α : Type} [DecidableEq κ] {pr : κ × α}
    {l : List (κ × α)} {k : κ} (h : pr ∈ aerase l k) : pr ∈ l := by
  induction l with
  | nil => simpa [aerase] using h
  | cons p0 l ih =>
      obtain ⟨k0, v0⟩ := p0
      by_cases h0 : k0 = k
      · simp only [aerase, if_pos h0] at h
        exact List.mem_cons_of_mem _ h
      · simp only [aerase, if_neg h0, List.mem_cons] at h
        rcases h with h | h
        · simp [h]
        · exact List.mem_cons_of_mem _ (ih h)

theorem ainsert_ne_nil {κ α : Type} [DecidableEq κ]
    (l : List (κ × α)) (k : κ) (v : α) : ainsert l k v ≠ [] := by
  cases l with
  | nil => simp [ainsert]
  | cons p0 l =>
      obtain ⟨k0, v0⟩ := p0
      by_cases h0 : k0 = k
      · simp [ainsert, h0]
      · simp [ainsert, h0]

theorem aerase_length_ge {κ α : Type} [DecidableEq κ]
    (l : List (κ × α)) (k : κ) : l.length - 1 ≤ (aerase l k).length := by
  induction l with
  | nil => simp [aerase]
  | cons p0 l ih =>
      obtain ⟨k0, v0⟩ := p0
      by_cases h0 : k0 = k
      · simp [aerase, h0]
      · simp only [aerase, if_neg h0, List.length_cons]
        omega

theorem aerase_ne_nil_of_length {κ α : Type} [DecidableEq κ]
    {l : List (κ × α)} {k : κ} (h : 1 < l.length) : aerase l k ≠ [] := by
  have := aerase_length_ge l k
  intro hc
  rw [hc] at this
  simp at this
  omega

theorem mem_akeys_aerase_of_ne {κ α : Type} [DecidableEq κ]
    {l : List (κ × α)} {k k' : κ} (h : k' ∈ akeys l) (hne : k' ≠ k) :
    k' ∈ akeys (aerase l k) := by
  rw [mem_akeys_iff_alookup] at h ⊢
  rwa [alookup_aerase_ne l k k' (fun hc => hne hc.symm)]

theorem except_map_ok {α β : Type} {f : α → β} {x : Except Err α} {b : β}
    (h : Except.map f x = Except.ok b) : ∃ a, x = Except.ok a ∧ f a = b := by
  cases x with
  | error e => simp [Except.map] at h
  | ok a => exact ⟨a, rfl, by simpa [Except.map] using h⟩

theorem inv_add_resource {env : Env} {lfs : FsNode} {st : DropboxStore}
    {fp lp v : String} {deps : Option (List String)} {st2 : DropboxStore}
    {pth : String} (hinv : StoreInv st)
    (h : add_resource env lfs st fp lp v deps = Except.ok (st2, pth)) :
    StoreInv st2 := by
  unfold add_resource at h
  dsimp only at h
  split_ifs at h
  all_goals try exact Except.noConfusion h
  rw [Except.ok.injEq, Prod.mk.injEq] at h
  obtain ⟨h1, _⟩ := h
  subst h1
  intro pr hpr
  rcases mem_ainsert hpr with hpr | hpr
  · subst hpr
    simp [akeys]
  · exact hinv pr hpr

theorem alookup_mem {κ α : Type} [DecidableEq κ] {l : List (κ × α)} {k : κ}
    {v : α} (h : alookup l k = some v) : (k, v) ∈ l := by
  induction l with
  | nil => simp [alookup] at h
  | cons p0 l ih =>
      obtain ⟨k0, v0⟩ := p0
      by_cases h0 : k0 = k
      · subst h0
        rw [show alookup ((k0, v0) :: l) k0 = some v0 from by simp [alookup]]
          at h
        injection h with h1
        subst h1
        exact List.mem_cons_self _ _
      · simp only [alookup, if_neg h0] at h
        exact List.mem_cons_of_mem _ (ih h)

theorem inv_copy_version {st : DropboxStore} {r sv nv : String} {cd : Bool}
    {st2 : DropboxStore} (hinv : StoreInv st)
    (h : copy_version st r sv nv cd = Except.ok st2) : StoreInv st2 := by
  unfold copy_version at h
  dsimp only at h
  by_cases c0 : strTrim nv = ""
  · rw [if_pos c0] at h
    exact Except.noConfusion h
  · rw [if_neg c0] at h
    by_cases c1 : strTrim nv = "current"
    · rw [if_pos c1] at h
      exact Except.noConfusion h
    · rw [if_neg c1] at h
      cases hidx : alookup st.index r with
      | none =>
          rw [hidx] at h
          exact Except.noConfusion h
      | some rd =>
          rw [hidx] at h
          dsimp only at h
          by_cases c2 : (alookup rd.versionsData sv).isSome = false
          · rw [if_pos c2] at h
            exact Except.noConfusion h
          · rw [if_neg c2] at h
            by_cases c3 : (rd.parentDirname, strTrim nv) ∈ st.disk.versionDirs
            · rw [if_pos c3] at h
              exact Except.noConfusion h
            · rw [if_neg c3] at h
              by_cases c4 : (if sv = "current"
                  then (alookup st.disk.curLinks rd.parentDirname).isSome = false
                  else (rd.parentDirname, sv) ∉ st.disk.versionDirs)
              · rw [if_pos c4] at h
                exact Except.noConfusion h
              · rw [if_neg c4] at h
                cases hsv : alookup rd.versionsData sv with
                | none =>
                    rw [hsv] at h
                    exact Except.noConfusion h
                | some svr =>
                    rw [hsv] at h
                    dsimp only at h
                    cases h
                    intro pr hpr
                    rcases mem_ainsert hpr with hpr | hpr
                    · subst hpr
                      obtain ⟨hcur, hne⟩ := hinv (r, rd) (alookup_mem hidx)
                      refine ⟨?_, ainsert_ne_nil _ _ _⟩
                      exact (akeys_ainsert_mem _ _ _ _).mpr (Or.inr hcur)
                    · exact hinv pr hpr

theorem inv_change_current_version {st : DropboxStore} {r v : String}
    {st2 : DropboxStore} (hinv : StoreInv st)
    (h : change_current_version st r v = Except.ok st2) : StoreInv st2 := by
  unfold change_current_version at h
  cases hidx : alookup st.index r with
  | none =>
      rw [hidx] at h
      exact Except.noConfusion h
  | some rd =>
      rw [hidx] at h
      dsimp only at h
      split_ifs at h with h1
      cases hlink : alookup st.disk.curLinks rd.parentDirname with
      | none =>
          rw [hlink] at h
          exact Except.noConfusion h
      | some tgt =>
          rw [hlink] at h
          dsimp only at h
          cases h
          intro pr hpr
          rcases mem_ainsert hpr with hpr | hpr
          · subst hpr
            obtain ⟨_, hne⟩ := hinv (r, rd) (alookup_mem hidx)
            refine ⟨?_, hne⟩
            rw [mem_akeys_iff_alookup]
            have h2 : ¬alookup rd.versionsData v = none := by simpa using h1
            cases hv : alookup rd.versionsData v with
            | none => exact absurd hv h2
            | some x => rfl
          · exact hinv pr hpr

theorem inv_delete_version {st : DropboxStore} {r v : String}
    {st2 : DropboxStore} (hinv : StoreInv st)
    (h : delete_version st r v = Except.ok st2) : StoreInv st2 := by
  unfold delete_version at h
  split_ifs at h
  all_goals try exact Except.noConfusion h
  cases hidx : alookup st.index r with
  | none =>
      rw [hidx] at h
      exact Except.noConfusion h
  | some rd =>
      rw [hidx] at h
      dsimp only at h
      split_ifs at h with h1 h2 h3 h4
      all_goals try exact Except.noConfusion h
      cases h
      intro pr hpr
      rcases mem_ainsert hpr with hpr | hpr
      · subst hpr
        obtain ⟨hcur, _⟩ := hinv (r, rd) (alookup_mem hidx)
        refine ⟨?_, aerase_ne_nil_of_length (by omega)⟩
        exact mem_akeys_aerase_of_ne hcur (fun hc => h2 hc.symm)
      · exact hinv pr hpr

theorem inv_add_version_dependency {st : DropboxStore} {r v d : String}
    {st2 : DropboxStore} (hinv : StoreInv st)
    (h : add_version_dependency st r v d = Except.ok st2) : StoreInv st2 := by
  unfold add_version_dependency at h
  cases hidx : alookup st.index r with
  | none =>
      rw [hidx] at h
      exact Except.noConfusion h
  | some rd =>
      rw [hidx] at h
      dsimp only at h
      cases hv : alookup rd.versionsData v with
      | none =>
          rw [hv] at h
          exact Except.noConfusion h
      | some vr =>
          rw [hv] at h
          dsimp only at h
          split_ifs at h
          all_goals try exact Except.noConfusion h
          · cases h
            exact hinv
          · cases h
            intro pr hpr
            rcases mem_ainsert hpr with hpr | hpr
            · subst hpr
              obtain ⟨hcur, _⟩ := hinv (r, rd) (alookup_mem hidx)
              refine ⟨?_, ainsert_ne_nil _ _ _⟩
              exact (akeys_ainsert_mem _ _ _ _).mpr (Or.inr hcur)
            · exact hinv pr hpr

theorem inv_delete_version_dependency {st : DropboxStore} {r v d : String}
    {st2 : DropboxStore} (hinv : StoreInv st)
    (h : delete_version_dependency st r v d = Except.ok st2) : StoreInv st2 := by
  unfold delete_version_dependency at h
  cases hidx : alookup st.index r with
  | none =>
      rw [hidx] at h
      exact Except.noConfusion h
  | some rd =>
      rw [hidx] at h
      dsimp only at h
      cases hv : alookup rd.versionsData v with
      | none =>
          rw [hv] at h
          exact Except.noConfusion h
      | some vr =>
          rw [hv] at h
          dsimp only at h
          split_ifs at h
          all_goals try exact Except.noConfusion h
          cases h
          intro pr hpr
          rcases mem_ainsert hpr with hpr | hpr
          · subst hpr
            obtain ⟨hcur, _⟩ := hinv (r, rd) (alookup_mem hidx)
            refine ⟨?_, ainsert_ne_nil _ _ _⟩
            exact (akeys_ainsert_mem _ _ _ _).mpr (Or.inr hcur)
          · exact hinv pr hpr

theorem inv_delete_resource {st : DropboxStore} {r : String}
    {st2 : DropboxStore} (hinv : StoreInv st)
    (h : delete_resource st r = Except.ok st2) : StoreInv st2 := by
  unfold delete_resource at h
  cases hidx : alookup st.index r with
  | none =>
      rw [hidx] at h
      exact Except.noConfusion h
  | some rd =>
      rw [hidx] at h
      dsimp only at h
      split_ifs at h
      all_goals try exact Except.noConfusion h
      cases h
      intro pr hpr
      exact hinv pr (mem_aerase_sub hpr)

/-- C1: for every resource tracked by the store, after any successfully
committed operation (`add_resource`, `copy_version`,
`change_current_version`, `delete_version`, `add_version_dependency`,
`delete_version_dependency`, `delete_resource`), the resource's
`currentVersion` is a key of its versions mapping and the versions
mapping is non-empty — i.e. the invariant `StoreInv` is preserved by
every operation that returns successfully. -/
theorem dropbox_store_invariant_preserved (env : Env) (lfs : FsNode)
    (st : DropboxStore) (op : DbOp) (st' : DropboxStore)
    (hinv : StoreInv st) (h : applyDbOp env lfs st op = Except.ok st') :
    StoreInv st' := by
  cases op with
  | addResource fp lp v deps =>
      simp only [applyDbOp] at h
      obtain ⟨⟨st2, pth⟩, heq, hmap⟩ := except_map_ok h
      dsimp only at hmap
      subst hmap
      exact inv_add_resource hinv heq
  | copyVersion r sv nv cd =>
      exact inv_copy_version hinv h
  | changeCurrentVersion r v =>
      exact inv_change_current_version hinv h
  | deleteVersion r v =>
      exact inv_delete_version hinv h
  | addVersionDependency r v d =>
      exact inv_add_version_dependency hinv h
  | deleteVersionDependency r v d =>
      exact inv_delete_version_dependency hinv h
  | deleteResource r =>
      exact inv_delete_resource hinv h

def envX : Env := ⟨"/home/x", "/home/x"⟩

def lfsX : FsNode :=
  FsNode.dir [("x", FsNode.dir [("f.txt", FsNode.file "data")])]

def st0 : DropboxStore := ⟨"/db/unbox", [], ⟨[], [], []⟩⟩

/-- The store produced by adding `/x/f.txt` to the empty store with fresh
parent directory `p1`. -/
def st0' : DropboxStore :=
  ⟨"/db/unbox", [("f.txt", ⟨"p1", "1.0", [("1.0", ⟨[]⟩)]⟩)],
   ⟨["p1"], [("p1", "1.0")], [("p1", "/db/unbox/p1/1.0")]⟩⟩

theorem dropbox_store_invariant_preserved_witness :
    StoreInv st0 ∧
    applyDbOp envX lfsX st0 (DbOp.addResource "p1" "/x/f.txt" "1.0" none) =
      Except.ok st0' ∧
    StoreInv st0' := by
  have hinv : StoreInv st0 := by
    intro pr hpr
    simp [st0] at hpr
  have happ : applyDbOp envX lfsX st0
      (DbOp.addResource "p1" "/x/f.txt" "1.0" none) = Except.ok st0' := by rfl
  exact ⟨hinv, happ,
    dropbox_store_invariant_preserved envX lfsX st0 _ st0' hinv happ⟩

/-- C9: whenever the (normalized) local path exists, is a file or a
directory, and its basename is already a tracked resource name,
`add_resource` fails with `alreadyExists` — for every store, every fresh
parent name, every version argument and every dependency argument.  The
collision check (dropbox_module.py:200) runs before any filesystem side
effect and before the index write, so the failing call leaves the index
exactly as it was: in this model the index is only replaced through the
`Except.ok` result, which a failure never produces. -/
theorem add_resource_collision_rejected (env : Env) (lfs : FsNode)
    (st : DropboxStore) (freshParent p version : String)
    (deps : Option (List String))
    (hex : osExists lfs (pathComps (absPath env p)) = true)
    (hfd : (osIsDir lfs (pathComps (absPath env p)) ||
      osIsFile lfs (pathComps (absPath env p))) = true)
    (hcol : (alookup st.index (baseNameStr (absPath env p))).isSome) :
    add_resource env lfs st freshParent p version deps =
      Except.error Err.alreadyExists := by
  unfold add_resource
  dsimp only
  rw [hex, hfd]
  simp only [Bool.true_eq_false, if_false]
  rw [hcol]
  simp

theorem add_resource_collision_rejected_witness :
    (osExists lfsX (pathComps (absPath envX "/x/f.txt")) = true ∧
     (osIsDir lfsX (pathComps (absPath envX "/x/f.txt")) ||
       osIsFile lfsX (pathComps (absPath envX "/x/f.txt"))) = true ∧
     (alookup [("f.txt", (⟨"p0", "1.0", [("1.0", ⟨[]⟩)]⟩ : ResourceRecord))]
       (baseNameStr (absPath envX "/x/f.txt"))).isSome) ∧
    add_resource envX lfsX
      ⟨"/db/unbox", [("f.txt", ⟨"p0", "1.0", [("1.0", ⟨[]⟩)]⟩)],
        ⟨["p0"], [("p0", "1.0")], [("p0", "/db/unbox/p0/1.0")]⟩⟩
      "p1" "/x/f.txt" "9.9" none = Except.error Err.alreadyExists := by
  refine ⟨⟨rfl, rfl, rfl⟩, ?_⟩
  exact add_resource_collision_rejected envX lfsX _ "p1" "/x/f.txt" "9.9" none
    rfl rfl rfl

/-- A store with one resource `r` (parent directory `d1`) holding
versions `1.0` and `2.0`, of which `1.0` is current. -/
def stR : DropboxStore :=
  ⟨"/db/unbox",
   [("r", ⟨"d1", "1.0", [("1.0", ⟨["libA"]⟩), ("2.0", ⟨[]⟩)]⟩)],
   ⟨["d1"], [("d1", "1.0"), ("d1", "2.0")], [("d1", "/db/unbox/d1/1.0")]⟩⟩

/-- C2 (divergence): with the version argument omitted, `resource_path`
returns the path through the `current` symlink component, as the claim
says; but with an explicit existing version (`2.0` here, while current is
`1.0`) the source overwrites the requested version with the resource's
current version (dropbox_module.py:171), returning the current version's
path `/db/unbox/d1/1.0/r` instead of the requested `/db/unbox/d1/2.0/r`.
The `notFound` failures for a missing resource or version do hold. -/
theorem resource_path_ignores_requested_version :
    resource_path stR "r" none = Except.ok "/db/unbox/d1/current/r" ∧
    resource_path stR "r" (some "2.0") = Except.ok "/db/unbox/d1/1.0/r" ∧
    ("/db/unbox/d1/1.0/r" : String) ≠ "/db/unbox/d1/2.0/r" ∧
    resource_path stR "missing" none = Except.error Err.notFound ∧
    resource_path stR "r" (some "9.9") = Except.error Err.notFound :=
  ⟨rfl, rfl, by decide, rfl, rfl⟩

/-- C4 (divergence): `copy_version` with source version `"current"` is
rejected with `notFound` by the `version_exists` check
(dropbox_module.py:300) — the reserved keyword is never a key of the
versions mapping — even though the resource exists, its `current`
pointer exists on disk, and the code contains a (dead) branch intended
to copy from the `current` pointer (dropbox_module.py:309-310).  Copying
from an existing named source version succeeds. -/
theorem copy_version_rejects_current_keyword :
    resource_exists stR "r" = true ∧
    (alookup stR.disk.curLinks "d1").isSome = true ∧
    copy_version stR "r" "current" "3.0" true = Except.error Err.notFound ∧
    (∃ st', copy_version stR "r" "1.0" "3.0" true = Except.ok st') :=
  ⟨rfl, rfl, rfl, ⟨_, rfl⟩⟩

/-- C3: for a tracked resource (in a well-formed store), `delete_version`
fails with `invalidOperation` when the target version is the current one
or the only one (in which case it equals the current one, by the
invariant), changing nothing; and when the target is an existing version
that is not current and others remain, it succeeds, removing exactly
that version from the index and its directory from disk while the
current version and all other versions (and their directories) remain. -/
theorem delete_version_spec (st : DropboxStore) (r v : String)
    (rd : ResourceRecord) (hwf : StoreWf st)
    (hrd : alookup st.index r = some rd) :
    ((v = rd.currentVersion ∨ akeys rd.versionsData = [v]) →
      delete_version st r v = Except.error Err.invalidOperation) ∧
    (v ∈ akeys rd.versionsData → v ≠ rd.currentVersion →
      1 < rd.versionsData.length →
      ∃ st' rd', delete_version st r v = Except.ok st' ∧
        alookup st'.index r = some rd' ∧
        rd'.currentVersion = rd.currentVersion ∧
        alookup rd'.versionsData v = none ∧
        (∀ w, w ≠ v → alookup rd'.versionsData w = alookup rd.versionsData w) ∧
        (rd.parentDirname, v) ∉ st'.disk.versionDirs ∧
        (∀ w ∈ akeys rd.versionsData, w ≠ v →
          (rd.parentDirname, w) ∈ st'.disk.versionDirs)) := by
  obtain ⟨hcur, hvne, hnores, hnd, hdirs, _⟩ := hwf (r, rd) (alookup_mem hrd)
  constructor
  · intro hcase
    have hvc : v = rd.currentVersion := by
      rcases hcase with hvc | hkeys
      · exact hvc
      · have : rd.currentVersion ∈ ([v] : List String) := hkeys ▸ hcur
        simp at this
        exact this.symm
    have hvin : v ∈ akeys rd.versionsData := hvc ▸ hcur
    have hvcur : v ≠ "current" := fun hc => hnores (hc ▸ hvin)
    have hsome : (alookup rd.versionsData v).isSome = true :=
      (mem_akeys_iff_alookup _ _).mp hvin
    unfold delete_version
    rw [if_neg hvcur, hrd]
    dsimp only
    rw [hsome]
    simp only [Bool.true_eq_false, if_false]
    rw [if_pos hvc]
  · intro hvin hvnc hlen
    have hvcur : v ≠ "current" := fun hc => hnores (hc ▸ hvin)
    have hsome : (alookup rd.versionsData v).isSome = true :=
      (mem_akeys_iff_alookup _ _).mp hvin
    have hdirv : (rd.parentDirname, v) ∈ st.disk.versionDirs := hdirs v hvin
    refine ⟨{ st with
        index := ainsert st.index r
          { rd with versionsData := aerase rd.versionsData v }
        disk := { st.disk with
          versionDirs := st.disk.versionDirs.filter
            (fun pv => pv ≠ (rd.parentDirname, v)) } },
      { rd with versionsData := aerase rd.versionsData v }, ?_, ?_,
      rfl, ?_, ?_, ?_, ?_⟩
    · unfold delete_version
      rw [if_neg hvcur, hrd]
      dsimp only
      rw [hsome]
      simp only [Bool.true_eq_false, if_false]
      rw [if_neg hvnc, if_neg (by omega : ¬rd.versionsData.length ≤ 1),
        if_pos hdirv]
    · exact alookup_ainsert_self _ _ _
    · exact alookup_aerase_self _ _ hnd
    · intro w hw
      exact alookup_aerase_ne _ _ _ (fun hc => hw hc.symm)
    · intro hmem
      rw [List.mem_filter] at hmem
      simp at hmem
    · intro w hw hwv
      rw [List.mem_filter]
      refine ⟨hdirs w hw, ?_⟩
      simp [hwv]

/-- The record of resource `r` in `stR`. -/
def rdR : ResourceRecord := ⟨"d1", "1.0", [("1.0", ⟨["libA"]⟩), ("2.0", ⟨[]⟩)]⟩

theorem delete_version_spec_witness :
    (StoreWf stR ∧ alookup stR.index "r" = some rdR) ∧
    delete_version stR "r" "1.0" = Except.error Err.invalidOperation ∧
    (∃ st' rd', delete_version stR "r" "2.0" = Except.ok st' ∧
      alookup st'.index "r" = some rd' ∧
      rd'.currentVersion = rdR.currentVersion ∧
      alookup rd'.versionsData "2.0" = none ∧
      (∀ w, w ≠ "2.0" →
        alookup rd'.versionsData w = alookup rdR.versionsData w) ∧
      (rdR.parentDirname, "2.0") ∉ st'.disk.versionDirs ∧
      (∀ w ∈ akeys rdR.versionsData, w ≠ "2.0" →
        (rdR.parentDirname, w) ∈ st'.disk.versionDirs)) := by
  have hwf : StoreWf stR := by
    intro pr hpr
    rw [show stR.index = [("r", rdR)] from rfl] at hpr
    rw [List.mem_singleton] at hpr
    subst hpr
    exact ⟨by decide, by decide, by decide, by decide, by decide, by decide⟩
  have hrd : alookup stR.index "r" = some rdR := rfl
  have h := delete_version_spec stR "r" "1.0" rdR hwf hrd
  have h2 := delete_version_spec stR "r" "2.0" rdR hwf hrd
  exact ⟨⟨hwf, hrd⟩, h.1 (Or.inl (by decide)),
    h2.2 (by decide) (by decide) (by decide)⟩

theorem version_info_add_dep_other {st st2 : DropboxStore}
    {r v1 v2 d : String} (hne : v1 ≠ v2)
    (h : add_version_dependency st r v1 d = Except.ok st2) :
    version_info st2 r v2 = version_info st r v2 := by
  unfold add_version_dependency at h
  cases hidx : alookup st.index r with
  | none =>
      rw [hidx] at h
      exact Except.noConfusion h
  | some rd =>
      rw [hidx] at h
      dsimp only at h
      cases hv : alookup rd.versionsData v1 with
      | none =>
          rw [hv] at h
          exact Except.noConfusion h
      | some vr =>
          rw [hv] at h
          dsimp only at h
          split_ifs at h
          · cases h
            rfl
          · cases h
            unfold version_info
            dsimp only
            rw [hidx, alookup_ainsert_self]
            dsimp only
            rw [alookup_ainsert_ne _ _ _ _ hne]

theorem version_info_del_dep_other {st st2 : DropboxStore}
    {r v1 v2 d : String} (hne : v1 ≠ v2)
    (h : delete_version_dependency st r v1 d = Except.ok st2) :
    version_info st2 r v2 = version_info st r v2 := by
  unfold delete_version_dependency at h
  cases hidx : alookup st.index r with
  | none =>
      rw [hidx] at h
      exact Except.noConfusion h
  | some rd =>
      rw [hidx] at h
      dsimp only at h
      cases hv : alookup rd.versionsData v1 with
      | none =>
          rw [hv] at h
          exact Except.noConfusion h
      | some vr =>
          rw [hv] at h
          dsimp only at h
          split_ifs at h
          cases h
          unfold version_info
          dsimp only
          rw [hidx, alookup_ainsert_self]
          dsimp only
          rw [alookup_ainsert_ne _ _ _ _ hne]

/-- C5: copying an existing source version with `copy_dependencies=true`
(in a well-formed store, with a valid fresh new-version name) succeeds;
at the moment of the copy the new version's dependency set equals the
source's; and any subsequent `add_version_dependency` /
`delete_version_dependency` applied to one of the two versions leaves
the other version's dependency set unchanged — the two sets are
independent copies, not aliases. -/
theorem copy_version_dependency_isolation (st : DropboxStore)
    (r sv nv : String) (rd : ResourceRecord) (svr : VersionRecord)
    (hwf : StoreWf st) (hrd : alookup st.index r = some rd)
    (hsv : alookup rd.versionsData sv = some svr)
    (htrim : strTrim nv = nv) (hnv1 : nv ≠ "") (hnv2 : nv ≠ "current")
    (hfresh : (rd.parentDirname, nv) ∉ st.disk.versionDirs) :
    ∃ st', copy_version st r sv nv true = Except.ok st' ∧
      version_info st' r nv = Except.ok svr.dependencies ∧
      version_info st' r sv = Except.ok svr.dependencies ∧
      version_info st r sv = Except.ok svr.dependencies ∧
      (∀ d st2, add_version_dependency st' r nv d = Except.ok st2 →
        version_info st2 r sv = version_info st' r sv) ∧
      (∀ d st2, add_version_dependency st' r sv d = Except.ok st2 →
        version_info st2 r nv = version_info st' r nv) ∧
      (∀ d st2, delete_version_dependency st' r nv d = Except.ok st2 →
        version_info st2 r sv = version_info st' r sv) ∧
      (∀ d st2, delete_version_dependency st' r sv d = Except.ok st2 →
        version_info st2 r nv = version_info st' r nv) := by
  obtain ⟨hcur, hvne, hnores, hnd, hdirs, _⟩ := hwf (r, rd) (alookup_mem hrd)
  have hsvmem : sv ∈ akeys rd.versionsData := by
    rw [mem_akeys_iff_alookup, hsv]
    rfl
  have hsvc : sv ≠ "current" := fun hc => hnores (hc ▸ hsvmem)
  have hsvdir : (rd.parentDirname, sv) ∈ st.disk.versionDirs := hdirs sv hsvmem
  have hnvsv : nv ≠ sv := fun hc => hfresh (hc ▸ hsvdir)
  have hsvsome : (alookup rd.versionsData sv).isSome = true := by
    rw [hsv]
    rfl
  have hcopy : copy_version st r sv nv true = Except.ok { st with
      index := ainsert st.index r
        { rd with versionsData := ainsert rd.versionsData nv ⟨svr.dependencies⟩ }
      disk := { st.disk with
        versionDirs := (rd.parentDirname, nv) :: st.disk.versionDirs } } := by
    unfold copy_version
    dsimp only
    rw [htrim, if_neg hnv1, if_neg hnv2, hrd]
    dsimp only
    rw [hsvsome]
    simp only [Bool.true_eq_false, if_false]
    rw [if_neg hfresh]
    simp only [if_neg hsvc]
    rw [if_neg (not_not_intro hsvdir), hsv]
    simp
  refine ⟨_, hcopy, ?_, ?_, ?_, ?_, ?_, ?_, ?_⟩
  · unfold version_info
    dsimp only
    rw [alookup_ainsert_self]
    dsimp only
    rw [alookup_ainsert_self]
  · unfold version_info
    dsimp only
    rw [alookup_ainsert_self]
    dsimp only
    rw [alookup_ainsert_ne _ _ _ _ hnvsv, hsv]
  · unfold version_info
    rw [hrd]
    dsimp only
    rw [hsv]
  · intro d st2 h
    exact version_info_add_dep_other hnvsv h
  · intro d st2 h
    exact version_info_add_dep_other (fun hc => hnvsv hc.symm) h
  · intro d st2 h
    exact version_info_del_dep_other hnvsv h
  · intro d st2 h
    exact version_info_del_dep_other (fun hc => hnvsv hc.symm) h

theorem copy_version_dependency_isolation_witness :
    (StoreWf stR ∧ alookup stR.index "r" = some rdR ∧
     alookup rdR.versionsData "1.0" = some ⟨["libA"]⟩ ∧
     strTrim "3.0" = "3.0" ∧ ("3.0" : String) ≠ "" ∧
     ("3.0" : String) ≠ "current" ∧
     (rdR.parentDirname, "3.0") ∉ stR.disk.versionDirs) ∧
    ∃ st', copy_version stR "r" "1.0" "3.0" true = Except.ok st' ∧
      version_info st' "r" "3.0" = Except.ok ["libA"] ∧
      version_info st' "r" "1.0" = Except.ok ["libA"] ∧
      version_info stR "r" "1.0" = Except.ok ["libA"] ∧
      (∀ d st2, add_version_dependency st' "r" "3.0" d = Except.ok st2 →
        version_info st2 "r" "1.0" = version_info st' "r" "1.0") ∧
      (∀ d st2, add_version_dependency st' "r" "1.0" d = Except.ok st2 →
        version_info st2 "r" "3.0" = version_info st' "r" "3.0") ∧
      (∀ d st2, delete_version_dependency st' "r" "3.0" d = Except.ok st2 →
        version_info st2 "r" "1.0" = version_info st' "r" "1.0") ∧
      (∀ d st2, delete_version_dependency st' "r" "1.0" d = Except.ok st2 →
        version_info st2 "r" "3.0" = version_info st' "r" "3.0") := by
  have hwf : StoreWf stR := by
    intro pr hpr
    rw [show stR.index = [("r", rdR)] from rfl] at hpr
    rw [List.mem_singleton] at hpr
    subst hpr
    exact ⟨by decide, by decide, by decide, by decide, by decide, by decide⟩
  refine ⟨⟨hwf, rfl, rfl, by decide, by decide, by decide, by decide⟩, ?_⟩
  exact copy_version_dependency_isolation stR "r" "1.0" "3.0" rdR ⟨["libA"]⟩
    hwf rfl rfl (by decide) (by decide) (by decide) (by decide)
